import Mathlib

/-
A shallow embedding of naclypt (src/naclypt.c, the Argon2 build, together with
the zeroizer contract of src/scrypt/zero.c) and proofs about it.

Modelling conventions:
* Octets are natural numbers below 256 (`Byte := Nat`); machine integers are
  `Nat`/`Int` with explicit truncation (`% 256`, `% 2 ^ 32`, low 64 bits) at
  the points where the C code truncates.
* The input file, standard input (passphrase) and standard output are byte
  lists; `/dev/urandom` is an infinite byte tape `Nat → Byte` together with a
  read position.  `read_full` on a regular file returns `min n remaining`
  octets, which is exactly the C behaviour (short read only at end of file);
  writes to standard output are modelled as always succeeding.
* The AEAD primitive (libsodium's crypto_secretbox / crypto_secretbox_open)
  and the KDF (argon2i) are external libraries, out of scope per the spec;
  they are parameters of the model (`box`, `openRaw`, `kdf`) and theorems
  assume exactly the contracts the spec fixes for them.
* `mlockall`, `malloc` and the argon2 call itself are assumed to succeed
  (their failure exits 5 / 4 / 6 are not modelled; no claim concerns them).
  `fstat` of the input file is assumed to succeed; the kind of the input file
  and the validity of /dev/urandom (openable, statable, character device
  major/minor (1,9)) are part of the environment record.
-/

namespace Naclypt

abbrev Byte := Nat

/-- BUFLEN, naclypt.c line 18: 8 MiB chunk buffers. -/
def BUFLEN : Nat := 8 * 1024 * 1024

/-- crypto_secretbox_KEYBYTES = 32 (xsalsa20poly1305). -/
def KEYBYTES : Nat := 32

/-- crypto_secretbox_NONCEBYTES = 24 (xsalsa20poly1305). -/
def NONCEBYTES : Nat := 24

/-- crypto_secretbox_ZEROBYTES = 32 (xsalsa20poly1305). -/
def ZEROBYTES : Nat := 32

/-- crypto_secretbox_BOXZEROBYTES = 16 (xsalsa20poly1305). -/
def BOXZEROBYTES : Nat := 16

/-- NONCE_RANDOMS, naclypt.c lines 24-27. -/
def NONCE_RANDOMS : Nat :=
  if BOXZEROBYTES < NONCEBYTES then BOXZEROBYTES else NONCEBYTES

/-- INT32_MAX, the sentinel loaded into new_nonce_in (naclypt.c line 338). -/
def INT32_MAX : Int := 2147483647

/-- crypto_secretbox_PRIMITIVE is the string literal "xsalsa20poly1305"; the C
code copies `sizeof` of it, i.e. the 16 ASCII characters plus the final NUL
octet (naclypt.c line 113). -/
def PRIMITIVE : List Byte :=
  [120, 115, 97, 108, 115, 97, 50, 48, 112, 111, 108, 121, 49, 51, 48, 53, 0]

/-- The obfuscated primitive tag: each octet XORed with the variant-B pattern
`(uint8_t)(0xee + (i << 5))` (naclypt.c lines 116-117). -/
def obfTag : List Byte :=
  List.zipWith (fun i b => Nat.xor b ((0xee + i * 32) % 256))
    (List.range PRIMITIVE.length) PRIMITIVE

/-- Little-endian byte decomposition, `k` octets of `n` (low 8·k bits). -/
def leBytes : Nat → Nat → List Byte
  | 0, _ => []
  | k + 1, n => n % 256 :: leBytes k (n / 256)

/-- Big-endian byte serialisation of a parameter, as built by the encrypt
branch of get_argon2_param (naclypt.c lines 163-166): buf is filled from the
last index down while shifting `n` right. -/
def beBytes : Nat → Nat → List Byte
  | 0, _ => []
  | k + 1, n => beBytes k (n / 256) ++ [n % 256]

/-- Reassembly of a parameter from stream octets, as done by the decrypt
branch of get_argon2_param (naclypt.c lines 149-153): shift the accumulator
left by 8 bits when the field is wider than one octet (by 0 bits otherwise)
and add the next octet; arithmetic wraps at the field width. -/
def parseParam (width : Nat) (bytes : List Byte) : Nat :=
  bytes.foldl (fun acc b => ((if 1 < width then acc * 256 else acc) + b) % 2 ^ (8 * width)) 0

/-- fill_in_nonce (naclypt.c lines 51-61): writes the little-endian octets of
total_read into nonce positions BOXZEROBYTES, BOXZEROBYTES+1, ... as long as
positions are missing (NONCEBYTES - BOXZEROBYTES of them) and at most
`sizeof(uint_fast64_t) = 8` of them (the target is x86-64 glibc). -/
def fill_in_nonce (nonce : List Byte) (total_read : Nat) : List Byte :=
  let count := min 8 (NONCEBYTES - BOXZEROBYTES)
  nonce.take BOXZEROBYTES ++ leBytes count total_read
    ++ nonce.drop (BOXZEROBYTES + count)

/-- Ghost record of one iteration of the encryption loop: whether the nonce
was refreshed, the value of total_read at the start of the iteration, and the
nonce passed to crypto_secretbox for this chunk. -/
structure ChunkInfo where
  need : Bool
  total : Nat
  nonce : List Byte
deriving DecidableEq, Repr

/-- Result of the encryption loop: the byte sequences written to stdout by the
per-chunk write_full calls, the per-chunk ghost trace, and the number of
octets drawn from /dev/urandom. -/
structure EncOut where
  chunks : List (List Byte)
  trace : List ChunkInfo
  randUsed : Nat
deriving DecidableEq, Repr

/-- Result of the decryption loop: exit code (0 on success, 11 on structural
error), plaintext written to stdout, input octets consumed. -/
structure DecOut where
  exit : Nat
  output : List Byte
  consumed : Nat
deriving DecidableEq, Repr

/-- The encryption direction of the main loop (naclypt.c lines 274-341,
`decrypting = false`): ioffset = ZEROBYTES, ooffset = 0, the first ioffset
octets of ibuf are zero throughout.  `box` is crypto_secretbox, `rand` the
/dev/urandom tape, `randPos` the tape position. -/
def encryptLoop (box : List Byte → List Byte → List Byte → List Byte)
    (key : List Byte) (rand : Nat → Byte) (pt : List Byte)
    (total_read : Nat) (new_nonce_in : Int) (nonce : List Byte)
    (randPos : Nat) : EncOut :=
  let isize := BUFLEN - ZEROBYTES
  let r := min isize pt.length
  if hr : r = 0 then ⟨[], [], 0⟩
  else
    let need : Bool := decide (new_nonce_in ≤ 0)
    let nonce' := if need then
        fill_in_nonce
          ((List.range NONCE_RANDOMS).map (fun i => rand (randPos + i))
            ++ nonce.drop NONCE_RANDOMS) total_read
      else nonce
    let randPos' := if need then randPos + NONCE_RANDOMS else randPos
    let total' := total_read + r
    let rr := r + ZEROBYTES
    let c := box (List.replicate ZEROBYTES 0 ++ pt.take r) nonce' key
    let chunk :=
      (if need then nonce'.take NONCE_RANDOMS ++ c.drop NONCE_RANDOMS else c).take rr
    let nni' := if need then INT32_MAX else new_nonce_in - (r : Int)
    let rest := encryptLoop box key rand (pt.drop r) total' nni' nonce' randPos'
    ⟨chunk :: rest.chunks, ⟨need, total_read, nonce'⟩ :: rest.trace,
      (if need then NONCE_RANDOMS else 0) + rest.randUsed⟩
termination_by pt.length
decreasing_by
  simp only [List.length_drop]
  omega

/-- The decryption direction of the main loop (naclypt.c lines 274-341,
`decrypting = true`): ioffset = 0, ooffset = ZEROBYTES.  `openRaw` is
crypto_secretbox_open, returning its status and the octets it leaves in obuf;
the status component is discarded, exactly as the `(void)` cast at line 306
discards the return value. -/
def decryptLoop (openRaw : List Byte → List Byte → List Byte → Bool × List Byte)
    (key : List Byte) (ct : List Byte) (total_read : Nat)
    (new_nonce_in : Int) (nonce : List Byte) : DecOut :=
  let r := min BUFLEN ct.length
  if hr : r = 0 then ⟨0, [], 0⟩
  else if r ≤ ZEROBYTES then ⟨11, [], r⟩
  else
    let need : Bool := decide (new_nonce_in ≤ 0)
    let chunk := ct.take r
    let nonce' := if need then
        fill_in_nonce (chunk.take NONCE_RANDOMS ++ nonce.drop NONCE_RANDOMS)
          total_read
      else nonce
    let chunk' := if need then
        List.replicate NONCE_RANDOMS 0 ++ chunk.drop NONCE_RANDOMS
      else chunk
    if need = false ∧ (chunk.take BOXZEROBYTES).any (fun b => !(b == 0)) then
      ⟨11, [], r⟩
    else
      let m := (openRaw chunk' nonce' key).2
      let r' := r - ZEROBYTES
      let out := (m.drop ZEROBYTES).take r'
      let nni' := if need then INT32_MAX else new_nonce_in - (r' : Int)
      let rest := decryptLoop openRaw key (ct.drop r) (total_read + r') nni' nonce'
      ⟨rest.exit, out ++ rest.output, r + rest.consumed⟩
termination_by ct.length
decreasing_by
  simp only [List.length_drop]
  omega

/-- Kind of the opened input file, as classified by fstat's st_mode. -/
inductive FileKind where
  | regular
  | directory
  | fifo
  | socket
  | chardev
  | blockdev
deriving DecidableEq, Repr

/-- Environment facts outside the byte streams: the input file's kind and
whether /dev/urandom opens, stats, and is the character device with
major/minor (1,9) (naclypt.c lines 192-206 fold these three checks). -/
structure Env where
  inputKind : FileKind
  urandomOk : Bool
deriving DecidableEq, Repr

/-- Observable outcome of one run of main: the exit code, the octets written
to standard output, the number of input-file octets consumed, the number of
/dev/urandom octets consumed, and - when the run reached the key-derivation
step - the contents of the passphrase buffer (its pwlen-octet live region)
and of the derived-key buffer at process exit. -/
structure ProgResult where
  exit : Nat
  output : List Byte
  inputConsumed : Nat
  randUsed : Nat
  secrets : Option (List Byte × List Byte)
deriving DecidableEq, Repr

/-- The whole of main (naclypt.c lines 63-341) for a run whose mlockall,
fopen, fstat, malloc and argon2 calls succeed.  `decrypting` selects the mode
(argv = [prog, infile, -d] versus [prog, infile, logM, t, p]); `argLogm`,
`argT`, `argP` are the strtoul values of the three argv parameters (encrypt
mode only); `file` is the content of the input file; `pw` the octets standard
input supplies; `rand` the /dev/urandom tape; `box`, `openRaw` the AEAD
primitive; `kdf` the argon2i adapter (passphrase, salt, logm, t, parallelism
to 32-octet key).

Per the spec's KDF contract (section 4.3) and ARGON2_FLAG_CLEAR_PASSWORD
(naclypt.c line 252), the argon2 call zeroizes the pwlen-octet passphrase
region; main itself performs no other write to the passphrase or key buffers
after key derivation, so at exit the secrets field holds zeros for the
passphrase and the kdf output for the key. -/
def runMain (decrypting : Bool) (env : Env) (argLogm argT argP : Nat)
    (file pw : List Byte) (rand : Nat → Byte)
    (box : List Byte → List Byte → List Byte → List Byte)
    (openRaw : List Byte → List Byte → List Byte → Bool × List Byte)
    (kdf : List Byte → List Byte → Nat → Nat → Nat → List Byte) : ProgResult :=
  -- fstat succeeded; S_ISDIR check (lines 101-104)
  if env.inputKind = FileKind.directory then ⟨3, [], 0, 0, none⟩ else
  let tagLen := PRIMITIVE.length
  -- magic: read+compare when decrypting (lines 119-129), write otherwise (131-136)
  if decrypting ∧ file.length < tagLen then ⟨1, [], file.length, 0, none⟩ else
  if decrypting ∧ file.take tagLen ≠ obfTag then ⟨1, [], tagLen, 0, none⟩ else
  let out0 : List Byte := if decrypting then [] else obfTag
  let pos0 := if decrypting then tagLen else 0
  -- get_argon2_param(logm, ...) (line 180): read or cast+write, then range check
  if decrypting ∧ (file.drop pos0).length < 1 then ⟨1, out0, file.length, 0, none⟩ else
  let logm := if decrypting then parseParam 1 ((file.drop pos0).take 1)
              else argLogm % 2 ^ 8
  let out1 := if decrypting then out0 else out0 ++ beBytes 1 logm
  let pos1 := if decrypting then pos0 + 1 else pos0
  if logm < 2 ∨ 32 ≤ logm then ⟨if decrypting then 1 else 2, out1, pos1, 0, none⟩ else
  -- get_argon2_param(t, ...) (line 183)
  if decrypting ∧ (file.drop pos1).length < 4 then ⟨1, out1, file.length, 0, none⟩ else
  let t := if decrypting then parseParam 4 ((file.drop pos1).take 4)
           else argT % 2 ^ 32
  let out2 := if decrypting then out1 else out1 ++ beBytes 4 t
  let pos2 := if decrypting then pos1 + 4 else pos1
  if t = 0 then ⟨if decrypting then 1 else 2, out2, pos2, 0, none⟩ else
  -- get_argon2_param(parallelism, ...) (line 184)
  if decrypting ∧ (file.drop pos2).length < 4 then ⟨1, out2, file.length, 0, none⟩ else
  let p := if decrypting then parseParam 4 ((file.drop pos2).take 4)
           else argP % 2 ^ 32
  let out3 := if decrypting then out2 else out2 ++ beBytes 4 p
  let pos3 := if decrypting then pos2 + 4 else pos2
  if p = 0 ∨ 2 ^ 24 ≤ p then ⟨if decrypting then 1 else 2, out3, pos3, 0, none⟩ else
  -- 8 KiB per level of parallelism (lines 185-190); note: return 2 in both modes
  if 2 ^ logm < p * 8 then ⟨2, out3, pos3, 0, none⟩ else
  -- /dev/urandom open, fstat, character-device (1,9) checks (lines 192-206)
  if env.urandomOk = false then ⟨3, out3, pos3, 0, none⟩ else
  -- salt: read from the stream when decrypting (lines 209-213), else drawn
  -- from /dev/urandom and written out (lines 214-223)
  if decrypting ∧ (file.drop pos3).length < 32 then ⟨1, out3, file.length, 0, none⟩ else
  let salt := if decrypting then (file.drop pos3).take 32
              else (List.range 32).map rand
  let out4 := if decrypting then out3 else out3 ++ salt
  let pos4 := if decrypting then pos3 + 32 else pos3
  let saltRandUsed := if decrypting then 0 else 32
  -- passphrase from stdin, at most 16384 octets (lines 225-230)
  let password := pw.take 16384
  -- argon2i key derivation (lines 232-260), assumed to return ARGON2_OK
  let key := kdf password salt logm t p
  let secrets := (List.replicate password.length 0, key)
  if decrypting then
    let D := decryptLoop openRaw key (file.drop pos4) 0 0
      (List.replicate NONCEBYTES 0)
    ⟨D.exit, D.output, pos4 + D.consumed, 0, some secrets⟩
  else
    let E := encryptLoop box key rand file 0 0 (List.replicate NONCEBYTES 0)
      (saltRandUsed)
    ⟨0, out4 ++ E.chunks.flatten, file.length, saltRandUsed + E.randUsed, some secrets⟩

end Naclypt

namespace Naclypt

theorem length_leBytes (k n : Nat) : (leBytes k n).length = k := by
  induction k generalizing n with
  | zero => rfl
  | succ k ih => simp [leBytes, ih]

theorem length_beBytes (k n : Nat) : (beBytes k n).length = k := by
  induction k generalizing n with
  | zero => rfl
  | succ k ih => simp [beBytes, ih]

theorem length_obfTag : obfTag.length = 17 := by decide

theorem beBytes_one (n : Nat) : beBytes 1 n = [n % 256] := rfl

theorem take_len_eq {α : Type} {l : List α} {n : Nat} (h : l.length = n) :
    l.take n = l := by
  rw [← h]; exact List.take_length l

theorem leBytes_mod (k n : Nat) : leBytes k (n % 2 ^ (8 * k)) = leBytes k n := by
  induction k generalizing n with
  | zero => rfl
  | succ k ih =>
    have h256 : (2 : Nat) ^ (8 * (k + 1)) = 256 * 2 ^ (8 * k) := by
      rw [Nat.mul_succ, Nat.pow_add]; ring
    have h1 : n % 2 ^ (8 * (k + 1)) % 256 = n % 256 := by
      rw [h256]
      exact Nat.mod_mod_of_dvd n ⟨2 ^ (8 * k), rfl⟩
    have h2 : n % 2 ^ (8 * (k + 1)) / 256 = n / 256 % 2 ^ (8 * k) := by
      rw [h256]
      exact Nat.mod_mul_right_div_self n 256 (2 ^ (8 * k))
    simp [leBytes, h1, h2, ih]

theorem fill_in_nonce_eq (pre16 q : List Byte) (total : Nat)
    (h : pre16.length = 16) (hq : q.length = 8) :
    fill_in_nonce (pre16 ++ q) total = pre16 ++ leBytes 8 total := by
  have hlen : (pre16 ++ q).length = 24 := by simp [h, hq]
  simp only [fill_in_nonce, NONCEBYTES, BOXZEROBYTES]
  norm_num
  rw [List.take_left' h, List.drop_eq_nil_of_le (by omega), List.append_nil]

theorem length_fill_in_nonce (nonce : List Byte) (total : Nat)
    (h : nonce.length = 24) : (fill_in_nonce nonce total).length = 24 := by
  simp only [fill_in_nonce, NONCEBYTES, BOXZEROBYTES]
  norm_num
  simp [length_leBytes, h]

theorem parseParam_one (b : Byte) (h : b < 256) : parseParam 1 [b] = b := by
  simp [parseParam, Nat.mod_eq_of_lt h]

theorem parseParam_beBytes_four (t : Nat) (h : t < 2 ^ 32) :
    parseParam 4 (beBytes 4 t) = t := by
  have h32 : (2 : Nat) ^ 32 = 4294967296 := by norm_num
  rw [h32] at h
  simp only [parseParam, beBytes, List.foldl, List.append_assoc, List.cons_append,
    List.nil_append]
  norm_num
  omega

theorem encryptLoop_nil (box : List Byte → List Byte → List Byte → List Byte)
    (key : List Byte) (rand : Nat → Byte) (total : Nat) (nni : Int)
    (nonce : List Byte) (rp : Nat) :
    encryptLoop box key rand [] total nni nonce rp = ⟨[], [], 0⟩ := by
  rw [encryptLoop]
  simp

theorem encryptLoop_pos (box : List Byte → List Byte → List Byte → List Byte)
    (key : List Byte) (rand : Nat → Byte) (pt : List Byte) (total : Nat)
    (nni : Int) (nonce : List Byte) (rp : Nat) (h : pt ≠ []) :
    encryptLoop box key rand pt total nni nonce rp =
      (let r := min (BUFLEN - ZEROBYTES) pt.length
       let need : Bool := decide (nni ≤ 0)
       let nonce' := if need then
           fill_in_nonce
             ((List.range NONCE_RANDOMS).map (fun i => rand (rp + i))
               ++ nonce.drop NONCE_RANDOMS) total
         else nonce
       let randPos' := if need then rp + NONCE_RANDOMS else rp
       let c := box (List.replicate ZEROBYTES 0 ++ pt.take r) nonce' key
       let chunk :=
         (if need then nonce'.take NONCE_RANDOMS ++ c.drop NONCE_RANDOMS else c).take
           (r + ZEROBYTES)
       let nni' := if need then INT32_MAX else nni - (r : Int)
       let rest := encryptLoop box key rand (pt.drop r) (total + r) nni' nonce' randPos'
       ⟨chunk :: rest.chunks, ⟨need, total, nonce'⟩ :: rest.trace,
         (if need then NONCE_RANDOMS else 0) + rest.randUsed⟩) := by
  have hc : ¬ (min (BUFLEN - ZEROBYTES) pt.length = 0) := by
    have := List.length_pos.mpr h
    simp only [BUFLEN, ZEROBYTES]
    omega
  rw [encryptLoop]
  simp only [dif_neg hc]

theorem decryptLoop_nil
    (openRaw : List Byte → List Byte → List Byte → Bool × List Byte)
    (key : List Byte) (total : Nat) (nni : Int) (nonce : List Byte) :
    decryptLoop openRaw key [] total nni nonce = ⟨0, [], 0⟩ := by
  rw [decryptLoop]
  simp

theorem decryptLoop_small
    (openRaw : List Byte → List Byte → List Byte → Bool × List Byte)
    (key : List Byte) (ct : List Byte) (total : Nat) (nni : Int)
    (nonce : List Byte) (h : ct ≠ []) (h2 : min BUFLEN ct.length ≤ ZEROBYTES) :
    decryptLoop openRaw key ct total nni nonce = ⟨11, [], min BUFLEN ct.length⟩ := by
  have hc : ¬ (min BUFLEN ct.length = 0) := by
    have := List.length_pos.mpr h
    simp only [BUFLEN]
    omega
  rw [decryptLoop]
  simp only [dif_neg hc, if_pos h2]

theorem decryptLoop_pos
    (openRaw : List Byte → List Byte → List Byte → Bool × List Byte)
    (key : List Byte) (ct : List Byte) (total : Nat) (nni : Int)
    (nonce : List Byte) (h2 : ZEROBYTES < min BUFLEN ct.length) :
    decryptLoop openRaw key ct total nni nonce =
      (let r := min BUFLEN ct.length
       let need : Bool := decide (nni ≤ 0)
       let chunk := ct.take r
       let nonce' := if need then
           fill_in_nonce (chunk.take NONCE_RANDOMS ++ nonce.drop NONCE_RANDOMS)
             total
         else nonce
       let chunk' := if need then
           List.replicate NONCE_RANDOMS 0 ++ chunk.drop NONCE_RANDOMS
         else chunk
       if need = false ∧ (chunk.take BOXZEROBYTES).any (fun b => !(b == 0)) then
         ⟨11, [], r⟩
       else
         let m := (openRaw chunk' nonce' key).2
         let r' := r - ZEROBYTES
         let out := (m.drop ZEROBYTES).take r'
         let nni' := if need then INT32_MAX else nni - (r' : Int)
         let rest := decryptLoop openRaw key (ct.drop r) (total + r') nni' nonce'
         ⟨rest.exit, out ++ rest.output, r + rest.consumed⟩) := by
  have hc : ¬ (min BUFLEN ct.length = 0) := by
    simp only [ZEROBYTES] at h2
    omega
  have hc2 : ¬ (min BUFLEN ct.length ≤ ZEROBYTES) := by omega
  rw [decryptLoop]
  simp only [dif_neg hc, if_neg hc2]

theorem BUFLEN_eq : BUFLEN = 8388608 := by decide

theorem ZEROBYTES_eq : ZEROBYTES = 32 := by decide

theorem BOXZEROBYTES_eq : BOXZEROBYTES = 16 := by decide

theorem NONCEBYTES_eq : NONCEBYTES = 24 := by decide

theorem NONCE_RANDOMS_eq : NONCE_RANDOMS = 16 := by decide

theorem any_ne_zero_replicate (k : Nat) :
    (List.replicate k (0 : Byte)).any (fun b => !(b == 0)) = false := by
  simp

/-- Round-trip skeleton: running the decryption loop over the exact byte
stream that the encryption loop emitted, starting from the same loop state,
succeeds (exit 0) and yields `ψ pt`, where `ψ` describes what
crypto_secretbox_open leaves in obuf for a chunk encrypted by
crypto_secretbox (`ψ = id` when opening succeeds honestly; `ψ = ` zero fill
when authentication fails and the primitive zero-fills). -/
theorem decLoop_encLoop
    (box : List Byte → List Byte → List Byte → List Byte)
    (openRaw : List Byte → List Byte → List Byte → Bool × List Byte)
    (ek dk : List Byte) (rand : Nat → Byte) (ψ : List Byte → List Byte)
    (HboxLen : ∀ m nn k, (box m nn k).length = m.length)
    (HboxZero : ∀ m nn k, ZEROBYTES ≤ m.length →
      m.take ZEROBYTES = List.replicate ZEROBYTES 0 →
      (box m nn k).take BOXZEROBYTES = List.replicate BOXZEROBYTES 0)
    (Hopen : ∀ m nn, ZEROBYTES ≤ m.length →
      m.take ZEROBYTES = List.replicate ZEROBYTES 0 →
      (openRaw (box m nn ek) nn dk).2 =
        List.replicate ZEROBYTES 0 ++ ψ (m.drop ZEROBYTES))
    (Hψlen : ∀ x, (ψ x).length = x.length)
    (Hψapp : ∀ a b, ψ (a ++ b) = ψ a ++ ψ b) :
    ∀ (n : Nat) (pt : List Byte), pt.length ≤ n →
    ∀ (total : Nat) (nni : Int) (nonce : List Byte) (rp : Nat),
      nonce.length = NONCEBYTES →
      (decryptLoop openRaw dk
          (encryptLoop box ek rand pt total nni nonce rp).chunks.flatten
          total nni nonce).exit = 0 ∧
      (decryptLoop openRaw dk
          (encryptLoop box ek rand pt total nni nonce rp).chunks.flatten
          total nni nonce).output = ψ pt := by
  have hψnil : ψ [] = [] := List.length_eq_zero.mp (Hψlen [])
  intro n
  induction n with
  | zero =>
    intro pt hlen total nni nonce rp hnonce
    have hpt : pt = [] := List.length_eq_zero.mp (Nat.le_zero.mp hlen)
    subst hpt
    rw [encryptLoop_nil]
    simp only [List.flatten_nil]
    rw [decryptLoop_nil]
    exact ⟨rfl, hψnil.symm⟩
  | succ n ih =>
    intro pt hlen total nni nonce rp hnonce
    rcases eq_or_ne pt [] with rfl | hne
    · rw [encryptLoop_nil]
      simp only [List.flatten_nil]
      rw [decryptLoop_nil]
      exact ⟨rfl, hψnil.symm⟩
    · have hptpos : 0 < pt.length := List.length_pos.mpr hne
      set r := min (BUFLEN - ZEROBYTES) pt.length with hr_def
      have hr1 : 1 ≤ r := by simp only [hr_def, BUFLEN_eq, ZEROBYTES_eq]; omega
      have hrle : r ≤ pt.length := Nat.min_le_right _ _
      have hriz : r ≤ BUFLEN - ZEROBYTES := Nat.min_le_left _ _
      have htklen : (pt.take r).length = r := by
        simp [List.length_take, Nat.min_eq_left hrle]
      -- the plaintext block handed to crypto_secretbox
      set m : List Byte := List.replicate ZEROBYTES 0 ++ pt.take r with hm_def
      have hmlen : m.length = ZEROBYTES + r := by
        simp [hm_def, htklen]
      have hmtake : m.take ZEROBYTES = List.replicate ZEROBYTES 0 :=
        List.take_left' (by simp)
      have hmge : ZEROBYTES ≤ m.length := by omega
      have hmdrop : m.drop ZEROBYTES = pt.take r :=
        List.drop_left' (by simp)
      rw [encryptLoop_pos box ek rand pt total nni nonce rp hne]
      cases hneed : decide (nni ≤ 0) with
      | true =>
        simp only [← hr_def, hneed, if_true, ite_true]
        have hbb : ZEROBYTES ≤ BUFLEN := by decide
        set randoms : List Byte :=
          (List.range NONCE_RANDOMS).map (fun i => rand (rp + i)) with hrnd_def
        have hrndlen : randoms.length = NONCE_RANDOMS := by
          simp [hrnd_def]
        set nonce1 : List Byte :=
          fill_in_nonce (randoms ++ nonce.drop NONCE_RANDOMS) total with hn1_def
        have hn1 : nonce1 = randoms ++ leBytes 8 total := by
          rw [hn1_def]
          exact fill_in_nonce_eq randoms (nonce.drop NONCE_RANDOMS) total
            (by rw [hrndlen, NONCE_RANDOMS_eq])
            (by simp [hnonce, NONCEBYTES_eq, NONCE_RANDOMS_eq])
        have hmlen : (List.replicate ZEROBYTES (0:Byte) ++ List.take r pt).length
            = ZEROBYTES + r := by
          simp [htklen]
        have hmtake : (List.replicate ZEROBYTES (0:Byte) ++ List.take r pt).take ZEROBYTES
            = List.replicate ZEROBYTES 0 :=
          List.take_left' (by simp)
        have hmge : ZEROBYTES ≤ (List.replicate ZEROBYTES (0:Byte) ++ List.take r pt).length := by
          omega
        have hmdrop : (List.replicate ZEROBYTES (0:Byte) ++ List.take r pt).drop ZEROBYTES
            = List.take r pt :=
          List.drop_left' (by simp)
        set c : List Byte :=
          box (List.replicate ZEROBYTES 0 ++ List.take r pt) nonce1 ek with hc_def
        have hclen : c.length = ZEROBYTES + r := by
          rw [hc_def, HboxLen]; exact hmlen
        have hc16 : c.take NONCE_RANDOMS = List.replicate NONCE_RANDOMS 0 := by
          rw [NONCE_RANDOMS_eq, ← BOXZEROBYTES_eq, hc_def]
          exact HboxZero _ nonce1 ek hmge hmtake
        have hn1take : nonce1.take NONCE_RANDOMS = randoms := by
          rw [hn1]; exact List.take_left' hrndlen
        have hn1len : nonce1.length = NONCEBYTES := by
          rw [hn1]
          simp only [List.length_append, hrndlen, length_leBytes,
            NONCE_RANDOMS_eq, NONCEBYTES_eq]
        have hchunk : (nonce1.take NONCE_RANDOMS ++ c.drop NONCE_RANDOMS).take (r + ZEROBYTES)
            = randoms ++ c.drop NONCE_RANDOMS := by
          rw [hn1take]
          refine take_len_eq ?_
          simp only [List.length_append, hrndlen, List.length_drop, hclen,
            NONCE_RANDOMS_eq, ZEROBYTES_eq]
          omega
        rw [hchunk]
        set restE : EncOut :=
          encryptLoop box ek rand (pt.drop r) (total + r) INT32_MAX nonce1
            (rp + NONCE_RANDOMS) with hrest_def
        have hchunklen : (randoms ++ c.drop NONCE_RANDOMS).length = r + ZEROBYTES := by
          simp only [List.length_append, hrndlen, List.length_drop, hclen,
            NONCE_RANDOMS_eq, ZEROBYTES_eq]
          omega
        rw [List.flatten_cons]
        have hmin : min BUFLEN ((randoms ++ c.drop NONCE_RANDOMS) ++ restE.chunks.flatten).length
            = r + ZEROBYTES := by
          rcases Nat.le_total pt.length (BUFLEN - ZEROBYTES) with hsmall | hbig
          · have hreq : r = pt.length := by rw [hr_def]; exact min_eq_right hsmall
            have hdnil : pt.drop r = [] := by rw [hreq]; exact List.drop_length pt
            have hrnil : restE = ⟨[], [], 0⟩ := by
              rw [hrest_def, hdnil, encryptLoop_nil]
            rw [hrnil]
            simp only [List.flatten_nil, List.append_nil, hchunklen]
            omega
          · have hreq : r = BUFLEN - ZEROBYTES := by rw [hr_def]; exact min_eq_left hbig
            have hge : BUFLEN ≤ ((randoms ++ c.drop NONCE_RANDOMS) ++ restE.chunks.flatten).length := by
              rw [List.length_append, hchunklen]
              omega
            omega
        have h32lt : ZEROBYTES < min BUFLEN
            ((randoms ++ c.drop NONCE_RANDOMS) ++ restE.chunks.flatten).length := by
          rw [hmin]
          omega
        rw [decryptLoop_pos openRaw dk _ total nni nonce h32lt]
        simp only [hmin, hneed, if_true, ite_true, Bool.true_eq_false, false_and,
          if_false, ite_false]
        rw [List.take_left' hchunklen, List.drop_left' hchunklen]
        rw [List.take_left' hrndlen, List.drop_left' hrndlen]
        rw [← hn1_def]
        have hcsplit : List.replicate NONCE_RANDOMS (0:Byte) ++ c.drop NONCE_RANDOMS = c := by
          conv_rhs => rw [← List.take_append_drop NONCE_RANDOMS c]
          rw [hc16]
        rw [hcsplit]
        have hopen_c : (openRaw c nonce1 dk).2
            = List.replicate ZEROBYTES 0 ++ ψ (List.take r pt) := by
          rw [hc_def, Hopen _ nonce1 hmge hmtake, hmdrop]
        rw [hopen_c]
        have harith : r + ZEROBYTES - ZEROBYTES = r := by omega
        rw [harith]
        have hdropψ : (List.replicate ZEROBYTES (0:Byte) ++ ψ (List.take r pt)).drop ZEROBYTES
            = ψ (List.take r pt) :=
          List.drop_left' (by simp)
        rw [hdropψ]
        have houtψ : (ψ (List.take r pt)).take r = ψ (List.take r pt) :=
          take_len_eq (by rw [Hψlen, htklen])
        rw [houtψ]
        have hlen' : (pt.drop r).length ≤ n := by
          simp only [List.length_drop]
          omega
        obtain ⟨ihe, iho⟩ := ih (pt.drop r) hlen' (total + r) INT32_MAX nonce1
          (rp + NONCE_RANDOMS) hn1len
        rw [← hrest_def] at ihe iho
        refine ⟨?_, ?_⟩
        · simpa using ihe
        · rw [iho, ← Hψapp, List.take_append_drop]
      | false =>
        simp only [← hr_def, Bool.false_eq_true, if_false, ite_false]
        have hbb : ZEROBYTES ≤ BUFLEN := by decide
        have hmlen : (List.replicate ZEROBYTES (0:Byte) ++ List.take r pt).length
            = ZEROBYTES + r := by
          simp [htklen]
        have hmtake : (List.replicate ZEROBYTES (0:Byte) ++ List.take r pt).take ZEROBYTES
            = List.replicate ZEROBYTES 0 :=
          List.take_left' (by simp)
        have hmge : ZEROBYTES ≤ (List.replicate ZEROBYTES (0:Byte) ++ List.take r pt).length := by
          omega
        have hmdrop : (List.replicate ZEROBYTES (0:Byte) ++ List.take r pt).drop ZEROBYTES
            = List.take r pt :=
          List.drop_left' (by simp)
        set c : List Byte :=
          box (List.replicate ZEROBYTES 0 ++ List.take r pt) nonce ek with hc_def
        have hclen : c.length = ZEROBYTES + r := by
          rw [hc_def, HboxLen]; exact hmlen
        have hc16 : c.take BOXZEROBYTES = List.replicate BOXZEROBYTES 0 := by
          rw [hc_def]
          exact HboxZero _ nonce ek hmge hmtake
        have hchunk : c.take (r + ZEROBYTES) = c := take_len_eq (by omega)
        rw [hchunk]
        set restE : EncOut :=
          encryptLoop box ek rand (pt.drop r) (total + r) (nni - (r:Int)) nonce rp
          with hrest_def
        rw [List.flatten_cons]
        have hclen' : c.length = r + ZEROBYTES := by omega
        have hmin : min BUFLEN (c ++ restE.chunks.flatten).length = r + ZEROBYTES := by
          rcases Nat.le_total pt.length (BUFLEN - ZEROBYTES) with hsmall | hbig
          · have hreq : r = pt.length := by rw [hr_def]; exact min_eq_right hsmall
            have hdnil : pt.drop r = [] := by rw [hreq]; exact List.drop_length pt
            have hrnil : restE = ⟨[], [], 0⟩ := by
              rw [hrest_def, hdnil, encryptLoop_nil]
            rw [hrnil]
            simp only [List.flatten_nil, List.append_nil, hclen']
            omega
          · have hreq : r = BUFLEN - ZEROBYTES := by rw [hr_def]; exact min_eq_left hbig
            have hge : BUFLEN ≤ (c ++ restE.chunks.flatten).length := by
              rw [List.length_append, hclen']
              omega
            omega
        have h32lt : ZEROBYTES < min BUFLEN (c ++ restE.chunks.flatten).length := by
          rw [hmin]
          omega
        rw [decryptLoop_pos openRaw dk _ total nni nonce h32lt]
        simp only [hmin, hneed, Bool.false_eq_true, if_false, ite_false]
        rw [List.take_left' hclen', List.drop_left' hclen']
        have hzchk : (c.take BOXZEROBYTES).any (fun b => !(b == 0)) = false := by
          rw [hc16]
          exact any_ne_zero_replicate _
        rw [hzchk]
        simp only [Bool.false_eq_true, and_false, if_false, ite_false]
        have hopen_c : (openRaw c nonce dk).2
            = List.replicate ZEROBYTES 0 ++ ψ (List.take r pt) := by
          rw [hc_def, Hopen _ nonce hmge hmtake, hmdrop]
        rw [hopen_c]
        have harith : r + ZEROBYTES - ZEROBYTES = r := by omega
        rw [harith]
        have hdropψ : (List.replicate ZEROBYTES (0:Byte) ++ ψ (List.take r pt)).drop ZEROBYTES
            = ψ (List.take r pt) :=
          List.drop_left' (by simp)
        rw [hdropψ]
        have houtψ : (ψ (List.take r pt)).take r = ψ (List.take r pt) :=
          take_len_eq (by rw [Hψlen, htklen])
        rw [houtψ]
        have hlen' : (pt.drop r).length ≤ n := by
          simp only [List.length_drop]
          omega
        obtain ⟨ihe, iho⟩ := ih (pt.drop r) hlen' (total + r) (nni - (r:Int)) nonce rp hnonce
        rw [← hrest_def] at ihe iho
        refine ⟨?_, ?_⟩
        · simpa using ihe
        · rw [iho, ← Hψapp, List.take_append_drop]

theorem length_PRIMITIVE : PRIMITIVE.length = 17 := by decide

theorem drop_add_of_drop_eq {α : Type} {l r hd : List α} {a k : Nat}
    (h : l.drop a = hd ++ r) (hk : hd.length = k) : l.drop (a + k) = r := by
  rw [← List.drop_drop, h, List.drop_left' hk]

/-- Behaviour of a fully valid encryption run of main: header written, then
the loop output; exit code 0; passphrase zeroed and key not zeroed at exit. -/
theorem runMain_encrypt_eq (env : Env) (a t p : Nat) (pt pw : List Byte)
    (rand : Nat → Byte) (box : List Byte → List Byte → List Byte → List Byte)
    (openRaw : List Byte → List Byte → List Byte → Bool × List Byte)
    (kdf : List Byte → List Byte → Nat → Nat → Nat → List Byte)
    (henv : env.inputKind ≠ FileKind.directory)
    (hu : env.urandomOk = true)
    (ha2 : 2 ≤ a % 2 ^ 8) (ha32 : a % 2 ^ 8 < 32)
    (ht0 : t % 2 ^ 32 ≠ 0)
    (hp0 : p % 2 ^ 32 ≠ 0) (hp24 : p % 2 ^ 32 < 2 ^ 24)
    (hmem : (p % 2 ^ 32) * 8 ≤ 2 ^ (a % 2 ^ 8)) :
    runMain false env a t p pt pw rand box openRaw kdf =
      ⟨0,
       obfTag ++ (beBytes 1 (a % 2 ^ 8) ++ (beBytes 4 (t % 2 ^ 32)
         ++ (beBytes 4 (p % 2 ^ 32) ++ ((List.range 32).map rand
         ++ (encryptLoop box
              (kdf (pw.take 16384) ((List.range 32).map rand) (a % 2 ^ 8)
                (t % 2 ^ 32) (p % 2 ^ 32))
              rand pt 0 0 (List.replicate NONCEBYTES 0) 32).chunks.flatten)))),
       pt.length,
       32 + (encryptLoop box
              (kdf (pw.take 16384) ((List.range 32).map rand) (a % 2 ^ 8)
                (t % 2 ^ 32) (p % 2 ^ 32))
              rand pt 0 0 (List.replicate NONCEBYTES 0) 32).randUsed,
       some (List.replicate (pw.take 16384).length 0,
         kdf (pw.take 16384) ((List.range 32).map rand) (a % 2 ^ 8)
           (t % 2 ^ 32) (p % 2 ^ 32))⟩ := by
  have h1 : ¬ (a % 2 ^ 8 < 2 ∨ 32 ≤ a % 2 ^ 8) := by omega
  have h2 : ¬ (t % 2 ^ 32 = 0) := ht0
  have h3 : ¬ (p % 2 ^ 32 = 0 ∨ 2 ^ 24 ≤ p % 2 ^ 32) := by
    push_neg
    exact ⟨hp0, hp24⟩
  have h4 : ¬ (2 ^ (a % 2 ^ 8) < p % 2 ^ 32 * 8) := by omega
  simp only [runMain, hu, if_neg henv, Bool.false_eq_true, Bool.true_eq_false,
    false_and, if_false, ite_false, if_true, ite_true, if_neg h1, if_neg h2,
    if_neg h3, if_neg h4, List.append_assoc, List.nil_append]

/-- Behaviour of a decryption run of main on a stream with a well-formed
header carrying in-range parameters: the header is consumed and the loop runs
on the remainder with the derived key. -/
theorem runMain_decrypt_eq (env : Env) (a b cc : Nat) (file pw : List Byte)
    (rand : Nat → Byte) (box : List Byte → List Byte → List Byte → List Byte)
    (openRaw : List Byte → List Byte → List Byte → Bool × List Byte)
    (kdf : List Byte → List Byte → Nat → Nat → Nat → List Byte)
    (l tv pv : Nat) (salt body : List Byte)
    (hfile : file = obfTag ++ ([l] ++ (beBytes 4 tv ++ (beBytes 4 pv
      ++ (salt ++ body)))))
    (hsalt : salt.length = 32)
    (henv : env.inputKind ≠ FileKind.directory)
    (hu : env.urandomOk = true)
    (hl2 : 2 ≤ l) (hl32 : l < 32)
    (htv0 : tv ≠ 0) (htv32 : tv < 2 ^ 32)
    (hpv0 : pv ≠ 0) (hpv24 : pv < 2 ^ 24)
    (hmem : pv * 8 ≤ 2 ^ l) :
    runMain true env a b cc file pw rand box openRaw kdf =
      ⟨(decryptLoop openRaw (kdf (pw.take 16384) salt l tv pv) body 0 0
          (List.replicate NONCEBYTES 0)).exit,
       (decryptLoop openRaw (kdf (pw.take 16384) salt l tv pv) body 0 0
          (List.replicate NONCEBYTES 0)).output,
       58 + (decryptLoop openRaw (kdf (pw.take 16384) salt l tv pv) body 0 0
          (List.replicate NONCEBYTES 0)).consumed,
       0,
       some (List.replicate (pw.take 16384).length 0,
         kdf (pw.take 16384) salt l tv pv)⟩ := by
  have e17 : file.drop 17 = [l] ++ (beBytes 4 tv ++ (beBytes 4 pv ++ (salt ++ body))) := by
    rw [hfile]
    exact List.drop_left' length_obfTag
  have e18 : file.drop 18 = beBytes 4 tv ++ (beBytes 4 pv ++ (salt ++ body)) :=
    drop_add_of_drop_eq e17 rfl
  have e22 : file.drop 22 = beBytes 4 pv ++ (salt ++ body) :=
    drop_add_of_drop_eq e18 (length_beBytes 4 tv)
  have e26 : file.drop 26 = salt ++ body :=
    drop_add_of_drop_eq e22 (length_beBytes 4 pv)
  have e58 : file.drop 58 = body :=
    drop_add_of_drop_eq e26 hsalt
  have hflen : 58 ≤ file.length := by
    rw [hfile]
    simp only [List.length_append, length_obfTag, List.length_cons,
      List.length_nil, length_beBytes, hsalt]
    omega
  have htake17 : file.take 17 = obfTag := by
    rw [hfile]
    exact List.take_left' length_obfTag
  have htk1 : (file.drop 17).take 1 = [l] := by
    rw [e17]
    exact List.take_left' rfl
  have htk4t : (file.drop 18).take 4 = beBytes 4 tv := by
    rw [e18]
    exact List.take_left' (length_beBytes 4 tv)
  have htk4p : (file.drop 22).take 4 = beBytes 4 pv := by
    rw [e22]
    exact List.take_left' (length_beBytes 4 pv)
  have htksalt : (file.drop 26).take 32 = salt := by
    rw [e26]
    exact List.take_left' hsalt
  have hparse1 : parseParam 1 ((file.drop 17).take 1) = l := by
    rw [htk1]
    exact parseParam_one l (show l < 256 by omega)
  have hparse4t : parseParam 4 ((file.drop 18).take 4) = tv := by
    rw [htk4t]
    exact parseParam_beBytes_four tv htv32
  have hparse4p : parseParam 4 ((file.drop 22).take 4) = pv := by
    rw [htk4p]
    exact parseParam_beBytes_four pv (show pv < 2 ^ 32 by omega)
  have hc1 : ¬ ((file.drop 17).length < 1) := by rw [List.length_drop]; omega
  have hc2 : ¬ ((file.drop 18).length < 4) := by rw [List.length_drop]; omega
  have hc3 : ¬ ((file.drop 22).length < 4) := by rw [List.length_drop]; omega
  have hc4 : ¬ ((file.drop 26).length < 32) := by rw [List.length_drop]; omega
  have hnl : ¬ (file.length < 17) := by omega
  have h1 : ¬ (l < 2 ∨ 32 ≤ l) := by omega
  have h2 : ¬ (tv = 0) := htv0
  have h3 : ¬ (pv = 0 ∨ 2 ^ 24 ≤ pv) := by
    push_neg
    exact ⟨hpv0, hpv24⟩
  have h4 : ¬ (2 ^ l < pv * 8) := by omega
  simp only [runMain, length_PRIMITIVE, hu, if_neg henv, htake17, hparse1,
    hparse4t, hparse4p, htksalt, e58, Bool.true_eq_false, Bool.false_eq_true,
    true_and, false_and, eq_self_iff_true, not_true, if_false, ite_false,
    if_true, ite_true, if_neg hc1, if_neg hc2, if_neg hc3, if_neg hc4,
    if_neg hnl, if_neg h1, if_neg h2, if_neg h3, if_neg h4, and_false, and_true]
  rw [if_neg (show ¬ obfTag ≠ obfTag by simp)]

/-- Identity AEAD instance for witnesses: a box satisfying the secretbox
contract trivially (the message already carries the required zero regions). -/
def boxC : List Byte → List Byte → List Byte → List Byte := fun m _ _ => m

/-- Honest opener matching boxC: always succeeds and returns the message. -/
def openC : List Byte → List Byte → List Byte → Bool × List Byte :=
  fun c _ _ => (true, c)

/-- Always-failing opener: authentication fails and obuf is left zero-filled,
the behaviour libsodium guarantees and the spec fixes as the AEAD contract
for crypto_secretbox_open on failure. -/
def openZ : List Byte → List Byte → List Byte → Bool × List Byte :=
  fun c _ _ => (false, List.replicate c.length 0)

/-- Constant KDF instance for witnesses. -/
def kdfC : List Byte → List Byte → Nat → Nat → Nat → List Byte :=
  fun _ _ _ _ _ => List.replicate 32 0

/-- KDF instance with a non-zero derived key, for the zeroization claim. -/
def kdfOne : List Byte → List Byte → Nat → Nat → Nat → List Byte :=
  fun _ _ _ _ _ => List.replicate 32 1

/-- Constant random tape for witnesses. -/
def randC : Nat → Byte := fun _ => 0

theorem boxC_len : ∀ m nn k, (boxC m nn k).length = m.length := fun _ _ _ => rfl

theorem boxC_zero : ∀ m nn k, ZEROBYTES ≤ m.length →
    m.take ZEROBYTES = List.replicate ZEROBYTES 0 →
    (boxC m nn k).take BOXZEROBYTES = List.replicate BOXZEROBYTES 0 := by
  intro m nn k h1 h2
  show m.take BOXZEROBYTES = _
  have : m.take BOXZEROBYTES = (m.take ZEROBYTES).take BOXZEROBYTES := by
    rw [List.take_take]
    norm_num [BOXZEROBYTES_eq, ZEROBYTES_eq]
  rw [this, h2, List.take_replicate]
  norm_num [BOXZEROBYTES_eq, ZEROBYTES_eq]

/-- C1: For every plaintext of length in [0, 10*BUFLEN], every valid Argon2
parameter triple (logM, t, parallelism) and every non-empty passphrase,
decrypting the encryptor's output stream with the same passphrase reproduces
the original plaintext octet for octet, and both runs exit with code 0.  The
AEAD primitive and the KDF are the opaque external collaborators fixed by the
spec, so the statement quantifies over any box/open pair satisfying the
secretbox contract and any (pure) KDF. -/
theorem naclypt_C1_round_trip
    (env env2 : Env) (a t p : Nat) (pt pw : List Byte) (rand rand2 : Nat → Byte)
    (box : List Byte → List Byte → List Byte → List Byte)
    (openRaw : List Byte → List Byte → List Byte → Bool × List Byte)
    (kdf : List Byte → List Byte → Nat → Nat → Nat → List Byte)
    (henv : env.inputKind ≠ FileKind.directory) (hu : env.urandomOk = true)
    (henv2 : env2.inputKind ≠ FileKind.directory) (hu2 : env2.urandomOk = true)
    (ha2 : 2 ≤ a) (ha32 : a < 32)
    (ht1 : 1 ≤ t) (ht32 : t < 2 ^ 32)
    (hp1 : 1 ≤ p) (hp24 : p < 2 ^ 24)
    (hmem : p * 8 ≤ 2 ^ a)
    (hpw : pw ≠ [])
    (hptlen : pt.length ≤ 10 * BUFLEN)
    (HboxLen : ∀ m nn k, (box m nn k).length = m.length)
    (HboxZero : ∀ m nn k, ZEROBYTES ≤ m.length →
      m.take ZEROBYTES = List.replicate ZEROBYTES 0 →
      (box m nn k).take BOXZEROBYTES = List.replicate BOXZEROBYTES 0)
    (Hopen : ∀ m nn k, ZEROBYTES ≤ m.length →
      m.take ZEROBYTES = List.replicate ZEROBYTES 0 →
      openRaw (box m nn k) nn k = (true, m)) :
    (runMain false env a t p pt pw rand box openRaw kdf).exit = 0 ∧
    (runMain true env2 0 0 0
        (runMain false env a t p pt pw rand box openRaw kdf).output
        pw rand2 box openRaw kdf).exit = 0 ∧
    (runMain true env2 0 0 0
        (runMain false env a t p pt pw rand box openRaw kdf).output
        pw rand2 box openRaw kdf).output = pt := by
  have hma : a % 2 ^ 8 = a := Nat.mod_eq_of_lt (by omega)
  have hmt : t % 2 ^ 32 = t := Nat.mod_eq_of_lt ht32
  have hmp : p % 2 ^ 32 = p := Nat.mod_eq_of_lt (by omega)
  have hma256 : a % 256 = a := Nat.mod_eq_of_lt (by omega)
  have hE := runMain_encrypt_eq env a t p pt pw rand box openRaw kdf henv hu
    (by omega) (by omega) (by omega) (by omega) (by omega)
    (by rw [hma, hmp]; exact hmem)
  rw [hma, hmt, hmp] at hE
  rw [beBytes_one, hma256] at hE
  set salt : List Byte := (List.range 32).map rand with hsalt_def
  have hsaltlen : salt.length = 32 := by simp [hsalt_def]
  set key : List Byte := kdf (pw.take 16384) salt a t p with hkey_def
  set E : EncOut :=
    encryptLoop box key rand pt 0 0 (List.replicate NONCEBYTES 0) 32 with hE_def
  have hout : (runMain false env a t p pt pw rand box openRaw kdf).output
      = obfTag ++ ([a] ++ (beBytes 4 t ++ (beBytes 4 p
        ++ (salt ++ E.chunks.flatten)))) := by
    rw [hE]
  have hD := runMain_decrypt_eq env2 0 0 0
    (runMain false env a t p pt pw rand box openRaw kdf).output pw rand2 box
    openRaw kdf a t p salt E.chunks.flatten hout hsaltlen henv2 hu2 ha2 ha32
    (by omega) ht32 (by omega) hp24 hmem
  rw [← hkey_def] at hD
  have hRT := decLoop_encLoop box openRaw key key rand (fun x => x) HboxLen
    HboxZero
    (by
      intro mm nn h1 h2
      rw [Hopen mm nn key h1 h2]
      show mm = _
      conv_lhs => rw [← List.take_append_drop ZEROBYTES mm, h2])
    (fun x => rfl) (fun x y => rfl) pt.length pt le_rfl 0 0
    (List.replicate NONCEBYTES 0) 32 (by simp)
  rw [← hE_def] at hRT
  refine ⟨by rw [hE], ?_, ?_⟩
  · rw [hD]
    exact hRT.1
  · rw [hD]
    exact hRT.2

/-- Witness for C1 at a concrete input: plaintext [1,2,3], passphrase [7],
params (4,1,1), identity AEAD instance. -/
theorem naclypt_C1_round_trip_witness :
    (runMain false ⟨FileKind.regular, true⟩ 4 1 1 [1,2,3] [7] randC boxC openC
      kdfC).exit = 0 ∧
    (runMain true ⟨FileKind.regular, true⟩ 0 0 0
        (runMain false ⟨FileKind.regular, true⟩ 4 1 1 [1,2,3] [7] randC boxC
          openC kdfC).output
        [7] randC boxC openC kdfC).exit = 0 ∧
    (runMain true ⟨FileKind.regular, true⟩ 0 0 0
        (runMain false ⟨FileKind.regular, true⟩ 4 1 1 [1,2,3] [7] randC boxC
          openC kdfC).output
        [7] randC boxC openC kdfC).output = [1,2,3] :=
  naclypt_C1_round_trip ⟨FileKind.regular, true⟩ ⟨FileKind.regular, true⟩
    4 1 1 [1,2,3] [7] randC randC boxC openC kdfC
    (by decide) rfl (by decide) rfl
    (by decide) (by decide) (by decide) (by decide) (by decide) (by decide)
    (by decide) (by decide) (by decide)
    boxC_len boxC_zero (fun m nn k h1 h2 => rfl)

/-- The decryption loop depends on crypto_secretbox_open only through the
octets left in obuf, never through its return status. -/
theorem decryptLoop_ext
    (f g : List Byte → List Byte → List Byte → Bool × List Byte)
    (hfg : ∀ c nn k, (f c nn k).2 = (g c nn k).2) (key : List Byte) :
    ∀ (n : Nat) (ct : List Byte), ct.length ≤ n →
    ∀ (total : Nat) (nni : Int) (nonce : List Byte),
      decryptLoop f key ct total nni nonce
        = decryptLoop g key ct total nni nonce := by
  intro n
  induction n with
  | zero =>
    intro ct hle total nni nonce
    have : ct = [] := List.length_eq_zero.mp (Nat.le_zero.mp hle)
    subst this
    rw [decryptLoop_nil, decryptLoop_nil]
  | succ n ih =>
    intro ct hle total nni nonce
    rcases eq_or_ne ct [] with rfl | hne
    · rw [decryptLoop_nil, decryptLoop_nil]
    · have hpos : 0 < ct.length := List.length_pos.mpr hne
      rcases le_or_lt (min BUFLEN ct.length) ZEROBYTES with hsm | hlg
      · rw [decryptLoop_small f key ct total nni nonce hne hsm,
          decryptLoop_small g key ct total nni nonce hne hsm]
      · rw [decryptLoop_pos f key ct total nni nonce hlg,
          decryptLoop_pos g key ct total nni nonce hlg]
        have hrec := ih (ct.drop (min BUFLEN ct.length))
          (by
            simp only [List.length_drop]
            have : 1 ≤ min BUFLEN ct.length := by
              simp only [ZEROBYTES_eq] at hlg
              omega
            omega)
        simp only [hfg, hrec]

/-- C3: On decrypt, the return value of the AEAD open call is never
consulted: the loop behaves identically for any two openers leaving the same
octets in obuf (first conjunct), and with the contract-mandated zero-fill on
authentication failure (openZ) a structurally intact stream decrypts to
all-zero plaintext of the expected length with exit code 0 rather than an
error exit (second conjunct). -/
theorem naclypt_C3_auth_failure_ignored :
    (∀ (f g : List Byte → List Byte → List Byte → Bool × List Byte),
      (∀ c nn k, (f c nn k).2 = (g c nn k).2) →
      ∀ (key ct : List Byte) (total : Nat) (nni : Int) (nonce : List Byte),
        decryptLoop f key ct total nni nonce
          = decryptLoop g key ct total nni nonce) ∧
    (∀ (box : List Byte → List Byte → List Byte → List Byte)
       (ek dk : List Byte) (rand : Nat → Byte) (pt nonce0 : List Byte)
       (rp : Nat),
      (∀ m nn k, (box m nn k).length = m.length) →
      (∀ m nn k, ZEROBYTES ≤ m.length →
        m.take ZEROBYTES = List.replicate ZEROBYTES 0 →
        (box m nn k).take BOXZEROBYTES = List.replicate BOXZEROBYTES 0) →
      nonce0.length = NONCEBYTES →
      (decryptLoop openZ dk
          (encryptLoop box ek rand pt 0 0 nonce0 rp).chunks.flatten
          0 0 nonce0).exit = 0 ∧
      (decryptLoop openZ dk
          (encryptLoop box ek rand pt 0 0 nonce0 rp).chunks.flatten
          0 0 nonce0).output = List.replicate pt.length 0) := by
  constructor
  · intro f g hfg key ct total nni nonce
    exact decryptLoop_ext f g hfg key ct.length ct le_rfl total nni nonce
  · intro box ek dk rand pt nonce0 rp HboxLen HboxZero hn0
    have hRT := decLoop_encLoop box openZ ek dk rand
      (fun x => List.replicate x.length 0) HboxLen HboxZero
      (by
        intro mm nn h1 h2
        show List.replicate (box mm nn ek).length 0
          = List.replicate ZEROBYTES 0
            ++ List.replicate (List.drop ZEROBYTES mm).length 0
        rw [HboxLen, List.length_drop, ← List.replicate_add]
        congr 1
        omega)
      (fun x => by simp)
      (fun x y => by
        show List.replicate (x ++ y).length 0
          = List.replicate x.length 0 ++ List.replicate y.length 0
        rw [List.length_append, List.replicate_add])
      pt.length pt le_rfl 0 0 nonce0 rp hn0
    exact hRT

/-- Witness for C3 at concrete inputs: flag-independence between the honest
and an always-false opener on a singleton state, and zero-fill decryption of
a one-chunk stream. -/
theorem naclypt_C3_auth_failure_ignored_witness :
    (decryptLoop openC [] [3] 0 0 [] = decryptLoop
      (fun c _ _ => (false, c)) [] [3] 0 0 []) ∧
    ((decryptLoop openZ []
        (encryptLoop boxC [] randC [5] 0 0 (List.replicate 24 0) 0).chunks.flatten
        0 0 (List.replicate 24 0)).exit = 0 ∧
     (decryptLoop openZ []
        (encryptLoop boxC [] randC [5] 0 0 (List.replicate 24 0) 0).chunks.flatten
        0 0 (List.replicate 24 0)).output = List.replicate 1 0) :=
  ⟨naclypt_C3_auth_failure_ignored.1 openC (fun c _ _ => (false, c))
      (fun _ _ _ => rfl) [] [3] 0 0 [],
   naclypt_C3_auth_failure_ignored.2 boxC [] [] randC [5] (List.replicate 24 0)
      0 boxC_len boxC_zero (by decide)⟩

/-- While the countdown stays positive (it is at least the number of octets
still to be read), the encryption loop never refreshes the nonce: it draws no
randomness, every emitted chunk keeps the AEAD's zero region (first
BOXZEROBYTES octets zero), and every chunk is boxed with the incoming nonce. -/
theorem encLoop_no_refresh
    (box : List Byte → List Byte → List Byte → List Byte)
    (key : List Byte) (rand : Nat → Byte)
    (HboxZero : ∀ m nn k, ZEROBYTES ≤ m.length →
      m.take ZEROBYTES = List.replicate ZEROBYTES 0 →
      (box m nn k).take BOXZEROBYTES = List.replicate BOXZEROBYTES 0) :
    ∀ (n : Nat) (pt : List Byte), pt.length ≤ n →
    ∀ (total : Nat) (nni : Int) (nonce : List Byte) (rp : Nat),
      (pt.length : Int) ≤ nni →
      (encryptLoop box key rand pt total nni nonce rp).randUsed = 0 ∧
      (∀ ch ∈ (encryptLoop box key rand pt total nni nonce rp).chunks,
        ch.take BOXZEROBYTES = List.replicate BOXZEROBYTES 0) ∧
      (∀ ci ∈ (encryptLoop box key rand pt total nni nonce rp).trace,
        ci.need = false ∧ ci.nonce = nonce) := by
  intro n
  induction n with
  | zero =>
    intro pt hle total nni nonce rp hnni
    have : pt = [] := List.length_eq_zero.mp (Nat.le_zero.mp hle)
    subst this
    rw [encryptLoop_nil]
    refine ⟨rfl, ?_, ?_⟩ <;> simp
  | succ n ih =>
    intro pt hle total nni nonce rp hnni
    rcases eq_or_ne pt [] with rfl | hne
    · rw [encryptLoop_nil]
      refine ⟨rfl, ?_, ?_⟩ <;> simp
    · have hptpos : 0 < pt.length := List.length_pos.mpr hne
      have hneed : decide (nni ≤ 0) = false := by
        rw [decide_eq_false_iff_not]
        omega
      rw [encryptLoop_pos box key rand pt total nni nonce rp hne]
      simp only [hneed, Bool.false_eq_true, if_false, ite_false]
      set r := min (BUFLEN - ZEROBYTES) pt.length with hr_def
      have hr1 : 1 ≤ r := by simp only [hr_def, BUFLEN_eq, ZEROBYTES_eq]; omega
      have hrle : r ≤ pt.length := Nat.min_le_right _ _
      have hc16 : (box (List.replicate ZEROBYTES 0 ++ List.take r pt) nonce key).take
          BOXZEROBYTES = List.replicate BOXZEROBYTES 0 := by
        refine HboxZero _ _ _ ?_ (List.take_left' (by simp))
        simp
      have hchunk16 : ((box (List.replicate ZEROBYTES 0 ++ List.take r pt) nonce
          key).take (r + ZEROBYTES)).take BOXZEROBYTES
          = List.replicate BOXZEROBYTES 0 := by
        rw [List.take_take, Nat.min_eq_left
          (by simp only [BOXZEROBYTES_eq, ZEROBYTES_eq]; omega)]
        exact hc16
      obtain ⟨ih1, ih2, ih3⟩ := ih (pt.drop r)
        (by simp only [List.length_drop]; omega)
        (total + r) (nni - (r : Int)) nonce rp
        (by simp only [List.length_drop]; omega)
      refine ⟨?_, ?_, ?_⟩
      · simpa using ih1
      · intro ch hch
        rcases List.mem_cons.mp hch with rfl | hch2
        · exact hchunk16
        · exact ih2 ch hch2
      · intro ci hci
        rcases List.mem_cons.mp hci with rfl | hci2
        · exact ⟨rfl, rfl⟩
        · exact ih3 ci hci2

/-- C9: For every encryption whose total plaintext length is at most
INT32_MAX octets, the random nonce portion is drawn exactly once, on the
first chunk: loop randomness consumption is exactly NONCE_RANDOMS octets, the
first emitted chunk starts with those NONCE_RANDOMS random octets, and every
subsequent emitted chunk has all-zero first NONCE_RANDOMS octets. -/
theorem naclypt_C9_random_drawn_once
    (box : List Byte → List Byte → List Byte → List Byte)
    (key : List Byte) (rand : Nat → Byte) (pt n0 : List Byte) (rp : Nat)
    (HboxZero : ∀ m nn k, ZEROBYTES ≤ m.length →
      m.take ZEROBYTES = List.replicate ZEROBYTES 0 →
      (box m nn k).take BOXZEROBYTES = List.replicate BOXZEROBYTES 0)
    (hn0 : n0.length = NONCEBYTES)
    (hne : pt ≠ [])
    (hlen : pt.length ≤ 2147483647) :
    (encryptLoop box key rand pt 0 0 n0 rp).randUsed = NONCE_RANDOMS ∧
    ((encryptLoop box key rand pt 0 0 n0 rp).chunks.head?.map
        (fun ch => ch.take NONCE_RANDOMS))
      = some ((List.range NONCE_RANDOMS).map (fun i => rand (rp + i))) ∧
    (∀ ch ∈ (encryptLoop box key rand pt 0 0 n0 rp).chunks.tail,
      ch.take NONCE_RANDOMS = List.replicate NONCE_RANDOMS 0) := by
  have hptpos : 0 < pt.length := List.length_pos.mpr hne
  rw [encryptLoop_pos box key rand pt 0 0 n0 rp hne]
  have hneed : decide ((0:Int) ≤ 0) = true := by decide
  simp only [hneed, if_true, ite_true]
  set r := min (BUFLEN - ZEROBYTES) pt.length with hr_def
  have hr1 : 1 ≤ r := by simp only [hr_def, BUFLEN_eq, ZEROBYTES_eq]; omega
  have hrle : r ≤ pt.length := Nat.min_le_right _ _
  set randoms : List Byte :=
    (List.range NONCE_RANDOMS).map (fun i => rand (rp + i)) with hrnd_def
  have hrndlen : randoms.length = NONCE_RANDOMS := by simp [hrnd_def]
  have hn1 : fill_in_nonce (randoms ++ n0.drop NONCE_RANDOMS) 0
      = randoms ++ leBytes 8 0 :=
    fill_in_nonce_eq randoms (n0.drop NONCE_RANDOMS) 0
      (by rw [hrndlen, NONCE_RANDOMS_eq])
      (by simp [hn0, NONCEBYTES_eq, NONCE_RANDOMS_eq])
  obtain ⟨ih1, ih2, ih3⟩ := encLoop_no_refresh box key rand HboxZero
    (pt.drop r).length (pt.drop r) le_rfl (0 + r) INT32_MAX
    (fill_in_nonce (randoms ++ n0.drop NONCE_RANDOMS) 0) (rp + NONCE_RANDOMS)
    (by
      simp only [List.length_drop, INT32_MAX]
      omega)
  refine ⟨?_, ?_, ?_⟩
  · simpa using ih1
  · simp only [List.head?_cons, Option.map_some]
    rfl
  · intro ch hch
    simp only [EncOut.chunks, List.tail_cons] at hch
    have := (ih2 ch hch)
    rw [NONCE_RANDOMS_eq, ← BOXZEROBYTES_eq]
    exact this

/-- Witness for C9 at a concrete one-chunk input. -/
theorem naclypt_C9_random_drawn_once_witness :
    (encryptLoop boxC [] randC [9] 0 0 (List.replicate 24 0) 0).randUsed
      = NONCE_RANDOMS ∧
    ((encryptLoop boxC [] randC [9] 0 0 (List.replicate 24 0) 0).chunks.head?.map
        (fun ch => ch.take NONCE_RANDOMS))
      = some ((List.range NONCE_RANDOMS).map (fun i => randC (0 + i))) ∧
    (∀ ch ∈ (encryptLoop boxC [] randC [9] 0 0 (List.replicate 24 0) 0).chunks.tail,
      ch.take NONCE_RANDOMS = List.replicate NONCE_RANDOMS 0) :=
  naclypt_C9_random_drawn_once boxC [] randC [9] (List.replicate 24 0) 0
    boxC_zero (by decide) (by decide) (by decide)

/-- Every iteration of the encryption loop records a total_read at least the
incoming one and strictly below incoming plus the remaining plaintext. -/
theorem encLoop_totals_ge
    (box : List Byte → List Byte → List Byte → List Byte)
    (key : List Byte) (rand : Nat → Byte) :
    ∀ (n : Nat) (pt : List Byte), pt.length ≤ n →
    ∀ (total : Nat) (nni : Int) (nonce : List Byte) (rp : Nat),
    ∀ ci ∈ (encryptLoop box key rand pt total nni nonce rp).trace,
      total ≤ ci.total ∧ ci.total < total + pt.length := by
  intro n
  induction n with
  | zero =>
    intro pt hle total nni nonce rp
    have : pt = [] := List.length_eq_zero.mp (Nat.le_zero.mp hle)
    subst this
    rw [encryptLoop_nil]
    simp
  | succ n ih =>
    intro pt hle total nni nonce rp
    rcases eq_or_ne pt [] with rfl | hne
    · rw [encryptLoop_nil]
      simp
    · have hptpos : 0 < pt.length := List.length_pos.mpr hne
      rw [encryptLoop_pos box key rand pt total nni nonce rp hne]
      set r := min (BUFLEN - ZEROBYTES) pt.length with hr_def
      have hr1 : 1 ≤ r := by simp only [hr_def, BUFLEN_eq, ZEROBYTES_eq]; omega
      have hrle : r ≤ pt.length := Nat.min_le_right _ _
      intro ci hci
      rcases List.mem_cons.mp hci with rfl | hci2
      · refine ⟨le_rfl, ?_⟩
        show total < total + pt.length
        omega
      · have hdl : (pt.drop r).length = pt.length - r := List.length_drop r pt
        have := ih (pt.drop r) (by omega) (total + r) _ _ _ ci hci2
        rw [hdl] at this
        omega

/-- Incoming total_read values recorded by the encryption loop strictly
increase across iterations. -/
theorem encLoop_trace_sorted
    (box : List Byte → List Byte → List Byte → List Byte)
    (key : List Byte) (rand : Nat → Byte) :
    ∀ (n : Nat) (pt : List Byte), pt.length ≤ n →
    ∀ (total : Nat) (nni : Int) (nonce : List Byte) (rp : Nat),
      List.Pairwise (fun x y => x.total < y.total)
        (encryptLoop box key rand pt total nni nonce rp).trace := by
  intro n
  induction n with
  | zero =>
    intro pt hle total nni nonce rp
    have : pt = [] := List.length_eq_zero.mp (Nat.le_zero.mp hle)
    subst this
    rw [encryptLoop_nil]
    simp
  | succ n ih =>
    intro pt hle total nni nonce rp
    rcases eq_or_ne pt [] with rfl | hne
    · rw [encryptLoop_nil]
      simp
    · have hptpos : 0 < pt.length := List.length_pos.mpr hne
      rw [encryptLoop_pos box key rand pt total nni nonce rp hne]
      set r := min (BUFLEN - ZEROBYTES) pt.length with hr_def
      have hr1 : 1 ≤ r := by simp only [hr_def, BUFLEN_eq, ZEROBYTES_eq]; omega
      have hdrop : (pt.drop r).length ≤ n := by
        simp only [List.length_drop]
        omega
      rw [List.pairwise_cons]
      constructor
      · intro y hy
        have := (encLoop_totals_ge box key rand (pt.drop r).length (pt.drop r)
          le_rfl (total + r) _ _ _ y hy).1
        show total < y.total
        omega
      · exact ih (pt.drop r) hdrop (total + r) _ _ _

/-- Whenever the encryption loop refreshes the nonce, the recorded nonce
carries the little-endian counter octets of the recorded total_read in its
positions BOXZEROBYTES onward. -/
theorem encLoop_refresh_shape
    (box : List Byte → List Byte → List Byte → List Byte)
    (key : List Byte) (rand : Nat → Byte) :
    ∀ (n : Nat) (pt : List Byte), pt.length ≤ n →
    ∀ (total : Nat) (nni : Int) (nonce : List Byte) (rp : Nat),
      nonce.length = NONCEBYTES →
    ∀ ci ∈ (encryptLoop box key rand pt total nni nonce rp).trace,
      ci.need = true → ci.nonce.drop BOXZEROBYTES = leBytes 8 ci.total := by
  intro n
  induction n with
  | zero =>
    intro pt hle total nni nonce rp hnonce
    have : pt = [] := List.length_eq_zero.mp (Nat.le_zero.mp hle)
    subst this
    rw [encryptLoop_nil]
    simp
  | succ n ih =>
    intro pt hle total nni nonce rp hnonce
    rcases eq_or_ne pt [] with rfl | hne
    · rw [encryptLoop_nil]
      simp
    · have hptpos : 0 < pt.length := List.length_pos.mpr hne
      rw [encryptLoop_pos box key rand pt total nni nonce rp hne]
      set r := min (BUFLEN - ZEROBYTES) pt.length with hr_def
      have hr1 : 1 ≤ r := by simp only [hr_def, BUFLEN_eq, ZEROBYTES_eq]; omega
      have hdrop : (pt.drop r).length ≤ n := by
        simp only [List.length_drop]
        omega
      have hrndlen : ((List.range NONCE_RANDOMS).map (fun i => rand (rp + i))).length
          = NONCE_RANDOMS := by simp
      have hfill : fill_in_nonce ((List.range NONCE_RANDOMS).map (fun i => rand (rp + i))
          ++ nonce.drop NONCE_RANDOMS) total
          = (List.range NONCE_RANDOMS).map (fun i => rand (rp + i)) ++ leBytes 8 total :=
        fill_in_nonce_eq _ _ total (by rw [hrndlen, NONCE_RANDOMS_eq])
          (by simp [hnonce, NONCEBYTES_eq, NONCE_RANDOMS_eq])
      have hfdrop : (fill_in_nonce ((List.range NONCE_RANDOMS).map (fun i => rand (rp + i))
          ++ nonce.drop NONCE_RANDOMS) total).drop BOXZEROBYTES = leBytes 8 total := by
        rw [hfill]
        exact List.drop_left' (by rw [hrndlen, NONCE_RANDOMS_eq, BOXZEROBYTES_eq])
      have hflen : (fill_in_nonce ((List.range NONCE_RANDOMS).map (fun i => rand (rp + i))
          ++ nonce.drop NONCE_RANDOMS) total).length = NONCEBYTES := by
        rw [hfill, List.length_append, hrndlen, length_leBytes]
        decide
      cases hneed : decide (nni ≤ 0) with
      | true =>
        simp only [hneed, if_true, ite_true]
        intro ci hci
        rcases List.mem_cons.mp hci with rfl | hci2
        · intro _
          exact hfdrop
        · exact ih (pt.drop r) hdrop (total + r) _ _ _ hflen ci hci2
      | false =>
        simp only [hneed, Bool.false_eq_true, if_false, ite_false]
        intro ci hci
        rcases List.mem_cons.mp hci with rfl | hci2
        · intro hcon
          exact absurd hcon (by simp)
        · exact ih (pt.drop r) hdrop (total + r) _ _ _ hnonce ci hci2

/-- Eight little-endian octets determine a number below 2^64. -/
theorem leBytes8_inj {x y : Nat} (hx : x < 2 ^ 64) (hy : y < 2 ^ 64)
    (h : leBytes 8 x = leBytes 8 y) : x = y := by
  have h8 : ∀ z : Nat, leBytes 8 z = [z % 256, z / 256 % 256, z / 256 / 256 % 256,
      z / 256 / 256 / 256 % 256, z / 256 / 256 / 256 / 256 % 256,
      z / 256 / 256 / 256 / 256 / 256 % 256,
      z / 256 / 256 / 256 / 256 / 256 / 256 % 256,
      z / 256 / 256 / 256 / 256 / 256 / 256 / 256 % 256] := fun z => rfl
  rw [h8, h8] at h
  simp only [List.cons.injEq, and_true] at h
  omega

/-- C2 counterexample: encrypting a plaintext one octet longer than a full
chunk performs two crypto_secretbox calls (two distinct chunks of one run)
and passes the identical 24-octet nonce to both. -/
theorem naclypt_C2_counterexample :
    ((encryptLoop boxC [] randC (List.replicate (BUFLEN - ZEROBYTES + 1) 0)
        0 0 (List.replicate NONCEBYTES 0) 0).trace.map (fun ci => ci.nonce))
      = [List.replicate 24 0, List.replicate 24 0] := by
  have hlenr : (List.replicate (BUFLEN - ZEROBYTES + 1) (0:Byte)).length
      = BUFLEN - ZEROBYTES + 1 := List.length_replicate _ _
  have hne1 : (List.replicate (BUFLEN - ZEROBYTES + 1) (0:Byte)) ≠ [] := by
    intro hcon
    rw [hcon] at hlenr
    simp only [List.length_nil] at hlenr
    omega
  rw [encryptLoop_pos boxC [] randC _ 0 0 _ 0 hne1]
  simp only [hlenr]
  have hr : min (BUFLEN - ZEROBYTES) (BUFLEN - ZEROBYTES + 1) = BUFLEN - ZEROBYTES := by
    omega
  rw [hr]
  have hneed : decide ((0:Int) ≤ 0) = true := by decide
  simp only [hneed, if_true, ite_true]
  have hn1 : fill_in_nonce
      ((List.range NONCE_RANDOMS).map (fun i => randC (0 + i))
        ++ (List.replicate NONCEBYTES (0:Byte)).drop NONCE_RANDOMS) 0
      = List.replicate 24 0 := by decide
  rw [hn1]
  have hdrop1 : (List.replicate (BUFLEN - ZEROBYTES + 1) (0:Byte)).drop
      (BUFLEN - ZEROBYTES) = List.replicate 1 0 := by
    rw [List.drop_replicate]
    congr 1
  rw [hdrop1]
  have hne2 : (List.replicate 1 (0:Byte)) ≠ [] := by decide
  rw [encryptLoop_pos boxC [] randC _ _ INT32_MAX _ _ hne2]
  have hr2 : min (BUFLEN - ZEROBYTES) (List.replicate 1 (0:Byte)).length = 1 := by
    simp only [List.length_replicate, BUFLEN_eq, ZEROBYTES_eq]
    omega
  rw [hr2]
  have hneed2 : decide (INT32_MAX ≤ (0:Int)) = false := by decide
  simp only [hneed2, Bool.false_eq_true, if_false, ite_false]
  have hdrop2 : (List.replicate 1 (0:Byte)).drop 1 = [] := by decide
  rw [hdrop2, encryptLoop_nil]
  simp

/-- C2 amended: within one encryption run (of fewer than 2^64 plaintext
octets), the nonces of any two chunks that trigger a nonce refresh are
pairwise distinct; it is only the chunks inside one refresh epoch that reuse
the identical nonce (see the counterexample). -/
theorem naclypt_C2_refresh_nonces_distinct
    (box : List Byte → List Byte → List Byte → List Byte)
    (key : List Byte) (rand : Nat → Byte) (pt n0 : List Byte) (rp : Nat)
    (hn0 : n0.length = NONCEBYTES)
    (hlen : pt.length < 2 ^ 64) :
    List.Pairwise (fun x y => x.nonce ≠ y.nonce)
      ((encryptLoop box key rand pt 0 0 n0 rp).trace.filter
        (fun ci => ci.need)) := by
  have hsorted := encLoop_trace_sorted box key rand pt.length pt le_rfl 0 0 n0 rp
  have hsub : ((encryptLoop box key rand pt 0 0 n0 rp).trace.filter
      (fun ci => ci.need)).Sublist (encryptLoop box key rand pt 0 0 n0 rp).trace :=
    List.filter_sublist _
  have hpair := hsorted.sublist hsub
  refine List.Pairwise.imp_of_mem ?_ hpair
  intro a b ha hb hab
  have hamem := List.mem_of_mem_filter ha
  have hbmem := List.mem_of_mem_filter hb
  have haneed : a.need = true := List.of_mem_filter ha
  have hbneed : b.need = true := List.of_mem_filter hb
  have hashape := encLoop_refresh_shape box key rand pt.length pt le_rfl 0 0 n0
    rp hn0 a hamem haneed
  have hbshape := encLoop_refresh_shape box key rand pt.length pt le_rfl 0 0 n0
    rp hn0 b hbmem hbneed
  have habound := (encLoop_totals_ge box key rand pt.length pt le_rfl 0 0 n0 rp
    a hamem).2
  have hbbound := (encLoop_totals_ge box key rand pt.length pt le_rfl 0 0 n0 rp
    b hbmem).2
  intro heq
  have hle8 : leBytes 8 a.total = leBytes 8 b.total := by
    rw [← hashape, ← hbshape, heq]
  have := leBytes8_inj (by omega) (by omega) hle8
  omega

/-- Witness for the amended C2 theorem at a concrete one-chunk input. -/
theorem naclypt_C2_refresh_nonces_distinct_witness :
    List.Pairwise (fun x y => x.nonce ≠ y.nonce)
      ((encryptLoop boxC [] randC [1] 0 0 (List.replicate 24 0) 0).trace.filter
        (fun ci => ci.need)) :=
  naclypt_C2_refresh_nonces_distinct boxC [] randC [1] (List.replicate 24 0) 0
    (by decide) (by decide)

/-- C8: NONCE_RANDOMS = min(BOXZEROBYTES, NONCEBYTES) = 16; whenever a nonce
is produced (encrypt: random octets in front) or recovered (decrypt: the
chunk's leading octets in front), the resulting nonce is the 16-octet front
part followed by the little-endian low 64 bits of total_read at that point,
and with NONCEBYTES = 24 no further octets exist. -/
theorem naclypt_C8_nonce_layout :
    NONCE_RANDOMS = min BOXZEROBYTES NONCEBYTES ∧
    NONCE_RANDOMS = 16 ∧ NONCEBYTES = 24 ∧
    ∀ (pre16 old : List Byte) (total : Nat),
      pre16.length = NONCE_RANDOMS → old.length = NONCEBYTES →
      fill_in_nonce (pre16 ++ old.drop NONCE_RANDOMS) total
          = pre16 ++ leBytes 8 total ∧
      (pre16 ++ leBytes 8 total).take NONCE_RANDOMS = pre16 ∧
      (pre16 ++ leBytes 8 total).drop NONCE_RANDOMS = leBytes 8 total ∧
      (pre16 ++ leBytes 8 total).length = NONCEBYTES ∧
      leBytes 8 total = leBytes 8 (total % 2 ^ 64) := by
  refine ⟨by decide, by decide, by decide, ?_⟩
  intro pre16 old total hp ho
  have hp16 : pre16.length = 16 := by rw [hp]; decide
  refine ⟨?_, ?_, ?_, ?_, ?_⟩
  · exact fill_in_nonce_eq pre16 (old.drop NONCE_RANDOMS) total hp16
      (by simp [ho, NONCEBYTES_eq, NONCE_RANDOMS_eq])
  · rw [NONCE_RANDOMS_eq]
    exact List.take_left' hp16
  · rw [NONCE_RANDOMS_eq]
    exact List.drop_left' hp16
  · rw [List.length_append, hp16, length_leBytes]
    decide
  · have := leBytes_mod 8 total
    rw [show (2:Nat) ^ (8 * 8) = 2 ^ 64 by norm_num] at this
    exact this.symm

/-- Witness for C8 at a concrete front part, old nonce and counter value. -/
theorem naclypt_C8_nonce_layout_witness :
    fill_in_nonce (List.replicate 16 7 ++ (List.replicate 24 0).drop NONCE_RANDOMS)
        300 = List.replicate 16 7 ++ leBytes 8 300 ∧
    (List.replicate 16 7 ++ leBytes 8 300).take NONCE_RANDOMS
        = List.replicate 16 7 ∧
    (List.replicate 16 7 ++ leBytes 8 300).drop NONCE_RANDOMS = leBytes 8 300 ∧
    (List.replicate 16 7 ++ leBytes 8 300).length = NONCEBYTES ∧
    leBytes 8 300 = leBytes 8 (300 % 2 ^ 64) :=
  naclypt_C8_nonce_layout.2.2.2 (List.replicate 16 7) (List.replicate 24 0) 300
    (by decide) (by decide)

/-- C7: On every successful encryption the output stream begins with, in
order: the AEAD primitive name octets (incl. the terminating NUL) XORed with
the variant-B pattern 0xee + (i<<5); logM as one raw octet; t as four
big-endian octets; parallelism as four big-endian octets; the 32-octet salt.
The decryptor consumes the same fields in the same order (deriving its key
from the parsed values) and exits with code 1 on any tag mismatch. -/
theorem naclypt_C7_header_layout
    (box : List Byte → List Byte → List Byte → List Byte)
    (openRaw : List Byte → List Byte → List Byte → Bool × List Byte)
    (kdf : List Byte → List Byte → Nat → Nat → Nat → List Byte) :
    (∀ (env : Env) (a t p : Nat) (pt pw : List Byte) (rand : Nat → Byte),
      env.inputKind ≠ FileKind.directory → env.urandomOk = true →
      2 ≤ a → a < 32 → 1 ≤ t → t < 2 ^ 32 → 1 ≤ p → p < 2 ^ 24 →
      p * 8 ≤ 2 ^ a →
      (runMain false env a t p pt pw rand box openRaw kdf).output.take 58
        = (List.zipWith (fun i b => Nat.xor b ((0xee + i * 32) % 256))
            (List.range PRIMITIVE.length) PRIMITIVE)
          ++ ([a] ++ (beBytes 4 t ++ (beBytes 4 p ++ (List.range 32).map rand)))
        ∧ ((List.range 32).map rand).length = 32) ∧
    (∀ (env2 : Env) (file pw2 : List Byte) (rand2 : Nat → Byte),
      env2.inputKind ≠ FileKind.directory →
      17 ≤ file.length → file.take 17 ≠ obfTag →
      (runMain true env2 0 0 0 file pw2 rand2 box openRaw kdf).exit = 1) ∧
    (∀ (env2 : Env) (pw2 : List Byte) (rand2 : Nat → Byte)
       (l tv pv : Nat) (salt body : List Byte),
      salt.length = 32 →
      env2.inputKind ≠ FileKind.directory → env2.urandomOk = true →
      2 ≤ l → l < 32 → tv ≠ 0 → tv < 2 ^ 32 → pv ≠ 0 → pv < 2 ^ 24 →
      pv * 8 ≤ 2 ^ l →
      runMain true env2 0 0 0
          (obfTag ++ ([l] ++ (beBytes 4 tv ++ (beBytes 4 pv ++ (salt ++ body)))))
          pw2 rand2 box openRaw kdf
        = ⟨(decryptLoop openRaw (kdf (pw2.take 16384) salt l tv pv) body 0 0
              (List.replicate NONCEBYTES 0)).exit,
           (decryptLoop openRaw (kdf (pw2.take 16384) salt l tv pv) body 0 0
              (List.replicate NONCEBYTES 0)).output,
           58 + (decryptLoop openRaw (kdf (pw2.take 16384) salt l tv pv) body 0 0
              (List.replicate NONCEBYTES 0)).consumed,
           0,
           some (List.replicate (pw2.take 16384).length 0,
             kdf (pw2.take 16384) salt l tv pv)⟩) := by
  refine ⟨?_, ?_, ?_⟩
  · intro env a t p pt pw rand henv hu ha2 ha32 ht1 ht32 hp1 hp24 hmem
    have hma : a % 2 ^ 8 = a := Nat.mod_eq_of_lt (by omega)
    have hmt : t % 2 ^ 32 = t := Nat.mod_eq_of_lt ht32
    have hmp : p % 2 ^ 32 = p := Nat.mod_eq_of_lt (by omega)
    have hE := runMain_encrypt_eq env a t p pt pw rand box openRaw kdf henv hu
      (by omega) (by omega) (by omega) (by omega) (by omega)
      (by rw [hma, hmp]; exact hmem)
    rw [hma, hmt, hmp, beBytes_one, Nat.mod_eq_of_lt (show a < 256 by omega)]
      at hE
    refine ⟨?_, by simp⟩
    rw [hE]
    show (obfTag ++ ([a] ++ (beBytes 4 t ++ (beBytes 4 p
        ++ ((List.range 32).map rand
          ++ (encryptLoop box (kdf (pw.take 16384) ((List.range 32).map rand)
                a t p) rand pt 0 0 (List.replicate NONCEBYTES 0)
              32).chunks.flatten))))).take 58 = _
    have hhdr : (obfTag ++ ([a] ++ (beBytes 4 t ++ (beBytes 4 p
        ++ (List.range 32).map rand)))).length = 58 := by
      simp only [List.length_append, length_obfTag, List.length_cons,
        List.length_nil, length_beBytes, List.length_map, List.length_range]
    rw [show obfTag ++ ([a] ++ (beBytes 4 t ++ (beBytes 4 p
          ++ ((List.range 32).map rand
            ++ (encryptLoop box (kdf (pw.take 16384) ((List.range 32).map rand)
                  a t p) rand pt 0 0 (List.replicate NONCEBYTES 0)
                32).chunks.flatten))))
        = (obfTag ++ ([a] ++ (beBytes 4 t ++ (beBytes 4 p
            ++ (List.range 32).map rand))))
          ++ (encryptLoop box (kdf (pw.take 16384) ((List.range 32).map rand)
                a t p) rand pt 0 0 (List.replicate NONCEBYTES 0)
              32).chunks.flatten
      from by simp [List.append_assoc]]
    rw [List.take_left' hhdr]
    rfl
  · intro env2 file pw2 rand2 henv2 hlen hmagic
    simp only [runMain, length_PRIMITIVE, if_neg henv2, eq_self_iff_true,
      true_and, if_neg (show ¬ (file.length < 17) by omega), ne_eq,
      if_pos hmagic]
  · intro env2 pw2 rand2 l tv pv salt body hsalt henv2 hu2 hl2 hl32 htv0 htv32
      hpv0 hpv24 hmem
    exact runMain_decrypt_eq env2 0 0 0 _ pw2 rand2 box openRaw kdf l tv pv
      salt body rfl hsalt henv2 hu2 hl2 hl32 htv0 htv32 hpv0 hpv24 hmem

/-- Witness for C7 at concrete inputs: a valid encrypt header, a bad-magic
stream, and a valid decrypt header. -/
theorem naclypt_C7_header_layout_witness :
    ((runMain false ⟨FileKind.regular, true⟩ 14 3 1 [5] [7] randC boxC openC
        kdfC).output.take 58
      = (List.zipWith (fun i b => Nat.xor b ((0xee + i * 32) % 256))
          (List.range PRIMITIVE.length) PRIMITIVE)
        ++ ([14] ++ (beBytes 4 3 ++ (beBytes 4 1 ++ (List.range 32).map randC)))
      ∧ ((List.range 32).map randC).length = 32) ∧
    (runMain true ⟨FileKind.regular, true⟩ 0 0 0 (List.replicate 17 9) [7] randC
        boxC openC kdfC).exit = 1 :=
  ⟨(naclypt_C7_header_layout boxC openC kdfC).1 ⟨FileKind.regular, true⟩ 14 3 1
      [5] [7] randC (by decide) rfl (by decide) (by decide) (by decide)
      (by decide) (by decide) (by decide) (by decide),
   (naclypt_C7_header_layout boxC openC kdfC).2.1 ⟨FileKind.regular, true⟩
      (List.replicate 17 9) [7] randC (by decide) (by decide) (by decide)⟩

/-- C4 counterexample: encrypting with logM = 1 (out of range [2,32)) exits
with code 2, but the out-of-range parameter octet has already been written to
standard output (the stream is the obfuscated tag followed by the octet 1):
get_argon2_param writes the parameter before evaluating the range check. -/
theorem naclypt_C4_counterexample :
    runMain false ⟨FileKind.regular, true⟩ 1 1 1 [] [] randC boxC openC kdfC
      = ⟨2, obfTag ++ [1], 0, 0, none⟩ := by decide

/-- C4 amended: on encrypt an out-of-range numeric parameter exits with code
2, with the offending parameter's octets (and all preceding header fields)
already emitted to standard output; on decrypt an out-of-range header
parameter exits with code 1 right after that field is consumed. -/
theorem naclypt_C4_param_range_handling :
    (∀ (env : Env) (a t p : Nat) (pt pw : List Byte) (rand : Nat → Byte)
       (box : List Byte → List Byte → List Byte → List Byte)
       (openRaw : List Byte → List Byte → List Byte → Bool × List Byte)
       (kdf : List Byte → List Byte → Nat → Nat → Nat → List Byte),
      env.inputKind ≠ FileKind.directory →
      (a % 2 ^ 8 < 2 ∨ 32 ≤ a % 2 ^ 8) →
      runMain false env a t p pt pw rand box openRaw kdf
        = ⟨2, obfTag ++ beBytes 1 (a % 2 ^ 8), 0, 0, none⟩) ∧
    (∀ (env : Env) (a t p : Nat) (pt pw : List Byte) (rand : Nat → Byte)
       (box : List Byte → List Byte → List Byte → List Byte)
       (openRaw : List Byte → List Byte → List Byte → Bool × List Byte)
       (kdf : List Byte → List Byte → Nat → Nat → Nat → List Byte),
      env.inputKind ≠ FileKind.directory →
      2 ≤ a % 2 ^ 8 → a % 2 ^ 8 < 32 → t % 2 ^ 32 = 0 →
      runMain false env a t p pt pw rand box openRaw kdf
        = ⟨2, obfTag ++ (beBytes 1 (a % 2 ^ 8) ++ beBytes 4 (t % 2 ^ 32)),
            0, 0, none⟩) ∧
    (∀ (env : Env) (a t p : Nat) (pt pw : List Byte) (rand : Nat → Byte)
       (box : List Byte → List Byte → List Byte → List Byte)
       (openRaw : List Byte → List Byte → List Byte → Bool × List Byte)
       (kdf : List Byte → List Byte → Nat → Nat → Nat → List Byte),
      env.inputKind ≠ FileKind.directory →
      2 ≤ a % 2 ^ 8 → a % 2 ^ 8 < 32 → t % 2 ^ 32 ≠ 0 →
      (p % 2 ^ 32 = 0 ∨ 2 ^ 24 ≤ p % 2 ^ 32) →
      runMain false env a t p pt pw rand box openRaw kdf
        = ⟨2, obfTag ++ (beBytes 1 (a % 2 ^ 8) ++ (beBytes 4 (t % 2 ^ 32)
            ++ beBytes 4 (p % 2 ^ 32))), 0, 0, none⟩) ∧
    (∀ (env : Env) (pw : List Byte) (rand : Nat → Byte)
       (box : List Byte → List Byte → List Byte → List Byte)
       (openRaw : List Byte → List Byte → List Byte → Bool × List Byte)
       (kdf : List Byte → List Byte → Nat → Nat → Nat → List Byte)
       (l : Nat) (rest : List Byte),
      env.inputKind ≠ FileKind.directory → l < 256 → (l < 2 ∨ 32 ≤ l) →
      runMain true env 0 0 0 (obfTag ++ ([l] ++ rest)) pw rand box openRaw kdf
        = ⟨1, [], 18, 0, none⟩) ∧
    (∀ (env : Env) (pw : List Byte) (rand : Nat → Byte)
       (box : List Byte → List Byte → List Byte → List Byte)
       (openRaw : List Byte → List Byte → List Byte → Bool × List Byte)
       (kdf : List Byte → List Byte → Nat → Nat → Nat → List Byte)
       (l : Nat) (rest : List Byte),
      env.inputKind ≠ FileKind.directory → 2 ≤ l → l < 32 →
      runMain true env 0 0 0 (obfTag ++ ([l] ++ (beBytes 4 0 ++ rest))) pw rand
          box openRaw kdf
        = ⟨1, [], 22, 0, none⟩) ∧
    (∀ (env : Env) (pw : List Byte) (rand : Nat → Byte)
       (box : List Byte → List Byte → List Byte → List Byte)
       (openRaw : List Byte → List Byte → List Byte → Bool × List Byte)
       (kdf : List Byte → List Byte → Nat → Nat → Nat → List Byte)
       (l tv pv : Nat) (rest : List Byte),
      env.inputKind ≠ FileKind.directory → 2 ≤ l → l < 32 → tv ≠ 0 →
      tv < 2 ^ 32 → pv < 2 ^ 32 → (pv = 0 ∨ 2 ^ 24 ≤ pv) →
      runMain true env 0 0 0
          (obfTag ++ ([l] ++ (beBytes 4 tv ++ (beBytes 4 pv ++ rest)))) pw rand
          box openRaw kdf
        = ⟨1, [], 26, 0, none⟩) := by
  refine ⟨?_, ?_, ?_, ?_, ?_, ?_⟩
  · intro env a t p pt pw rand box openRaw kdf henv hbad
    simp only [runMain, if_neg henv, Bool.false_eq_true, false_and, if_false,
      ite_false, if_pos hbad]
  · intro env a t p pt pw rand box openRaw kdf henv h2 h32 ht
    simp only [runMain, if_neg henv, Bool.false_eq_true, false_and, if_false,
      ite_false, if_neg (show ¬ (a % 2 ^ 8 < 2 ∨ 32 ≤ a % 2 ^ 8) by omega),
      if_pos ht, List.append_assoc]
  · intro env a t p pt pw rand box openRaw kdf henv h2 h32 ht hp
    simp only [runMain, if_neg henv, Bool.false_eq_true, false_and, if_false,
      ite_false, if_neg (show ¬ (a % 2 ^ 8 < 2 ∨ 32 ≤ a % 2 ^ 8) by omega),
      if_neg ht, if_pos hp, List.append_assoc]
  · intro env pw rand box openRaw kdf l rest henv hl256 hbad
    have e17 : (obfTag ++ ([l] ++ rest)).drop 17 = [l] ++ rest :=
      List.drop_left' length_obfTag
    have hlen : (obfTag ++ ([l] ++ rest)).length = 18 + rest.length := by
      simp only [List.length_append, length_obfTag, List.length_cons,
        List.length_nil]
      omega
    have htake : (obfTag ++ ([l] ++ rest)).take 17 = obfTag :=
      List.take_left' length_obfTag
    have htk1 : ((obfTag ++ ([l] ++ rest)).drop 17).take 1 = [l] := by
      rw [e17]
      exact List.take_left' rfl
    have hparse : parseParam 1 (((obfTag ++ ([l] ++ rest)).drop 17).take 1)
        = l := by
      rw [htk1]
      exact parseParam_one l hl256
    simp only [runMain, length_PRIMITIVE, if_neg henv, eq_self_iff_true,
      true_and, if_neg (show ¬ ((obfTag ++ ([l] ++ rest)).length < 17) by omega),
      htake, ne_eq, not_true, if_false, ite_false, if_true, ite_true,
      if_neg (show ¬ (((obfTag ++ ([l] ++ rest)).drop 17).length < 1) by
        rw [List.length_drop]; omega),
      hparse, if_pos hbad]
  · intro env pw rand box openRaw kdf l rest henv hl2 hl32
    have e17 : (obfTag ++ ([l] ++ (beBytes 4 0 ++ rest))).drop 17
        = [l] ++ (beBytes 4 0 ++ rest) := List.drop_left' length_obfTag
    have e18 : (obfTag ++ ([l] ++ (beBytes 4 0 ++ rest))).drop 18
        = beBytes 4 0 ++ rest := drop_add_of_drop_eq e17 rfl
    have hlen : (obfTag ++ ([l] ++ (beBytes 4 0 ++ rest))).length
        = 22 + rest.length := by
      simp only [List.length_append, length_obfTag, List.length_cons,
        List.length_nil, length_beBytes]
      omega
    have htake : (obfTag ++ ([l] ++ (beBytes 4 0 ++ rest))).take 17 = obfTag :=
      List.take_left' length_obfTag
    have htk1 : ((obfTag ++ ([l] ++ (beBytes 4 0 ++ rest))).drop 17).take 1
        = [l] := by
      rw [e17]
      exact List.take_left' rfl
    have hparse : parseParam 1
        (((obfTag ++ ([l] ++ (beBytes 4 0 ++ rest))).drop 17).take 1) = l := by
      rw [htk1]
      exact parseParam_one l (show l < 256 by omega)
    have htk4 : ((obfTag ++ ([l] ++ (beBytes 4 0 ++ rest))).drop 18).take 4
        = beBytes 4 0 := by
      rw [e18]
      exact List.take_left' (length_beBytes 4 0)
    have hparse4 : parseParam 4
        (((obfTag ++ ([l] ++ (beBytes 4 0 ++ rest))).drop 18).take 4) = 0 := by
      rw [htk4]
      exact parseParam_beBytes_four 0 (by norm_num)
    simp only [runMain, length_PRIMITIVE, if_neg henv, eq_self_iff_true,
      true_and,
      if_neg (show ¬ ((obfTag ++ ([l] ++ (beBytes 4 0 ++ rest))).length < 17)
        by omega),
      htake, ne_eq, not_true, if_false, ite_false, if_true, ite_true,
      if_neg (show ¬ (((obfTag ++ ([l] ++ (beBytes 4 0 ++ rest))).drop 17).length
          < 1) by rw [List.length_drop]; omega),
      hparse, if_neg (show ¬ (l < 2 ∨ 32 ≤ l) by omega),
      if_neg (show ¬ (((obfTag ++ ([l] ++ (beBytes 4 0 ++ rest))).drop 18).length
          < 4) by rw [List.length_drop]; omega),
      hparse4, if_pos rfl]
  · intro env pw rand box openRaw kdf l tv pv rest henv hl2 hl32 htv0 htv32
      hpv32 hbad
    have e17 : (obfTag ++ ([l] ++ (beBytes 4 tv ++ (beBytes 4 pv ++ rest)))).drop 17
        = [l] ++ (beBytes 4 tv ++ (beBytes 4 pv ++ rest)) :=
      List.drop_left' length_obfTag
    have e18 : (obfTag ++ ([l] ++ (beBytes 4 tv ++ (beBytes 4 pv ++ rest)))).drop 18
        = beBytes 4 tv ++ (beBytes 4 pv ++ rest) := drop_add_of_drop_eq e17 rfl
    have e22 : (obfTag ++ ([l] ++ (beBytes 4 tv ++ (beBytes 4 pv ++ rest)))).drop 22
        = beBytes 4 pv ++ rest := drop_add_of_drop_eq e18 (length_beBytes 4 tv)
    have hlen : (obfTag ++ ([l] ++ (beBytes 4 tv ++ (beBytes 4 pv ++ rest)))).length
        = 26 + rest.length := by
      simp only [List.length_append, length_obfTag, List.length_cons,
        List.length_nil, length_beBytes]
      omega
    have htake : (obfTag ++ ([l] ++ (beBytes 4 tv ++ (beBytes 4 pv ++ rest)))).take 17
        = obfTag := List.take_left' length_obfTag
    have htk1 : ((obfTag ++ ([l] ++ (beBytes 4 tv ++ (beBytes 4 pv ++ rest)))).drop 17).take 1
        = [l] := by
      rw [e17]
      exact List.take_left' rfl
    have hparse : parseParam 1
        (((obfTag ++ ([l] ++ (beBytes 4 tv ++ (beBytes 4 pv ++ rest)))).drop 17).take 1)
        = l := by
      rw [htk1]
      exact parseParam_one l (show l < 256 by omega)
    have htk4 : ((obfTag ++ ([l] ++ (beBytes 4 tv ++ (beBytes 4 pv ++ rest)))).drop 18).take 4
        = beBytes 4 tv := by
      rw [e18]
      exact List.take_left' (length_beBytes 4 tv)
    have hparse4 : parseParam 4
        (((obfTag ++ ([l] ++ (beBytes 4 tv ++ (beBytes 4 pv ++ rest)))).drop 18).take 4)
        = tv := by
      rw [htk4]
      exact parseParam_beBytes_four tv htv32
    have htk4p : ((obfTag ++ ([l] ++ (beBytes 4 tv ++ (beBytes 4 pv ++ rest)))).drop 22).take 4
        = beBytes 4 pv := by
      rw [e22]
      exact List.take_left' (length_beBytes 4 pv)
    have hparse4p : parseParam 4
        (((obfTag ++ ([l] ++ (beBytes 4 tv ++ (beBytes 4 pv ++ rest)))).drop 22).take 4)
        = pv := by
      rw [htk4p]
      exact parseParam_beBytes_four pv hpv32
    simp only [runMain, length_PRIMITIVE, if_neg henv, eq_self_iff_true,
      true_and,
      if_neg (show ¬ ((obfTag ++ ([l] ++ (beBytes 4 tv ++ (beBytes 4 pv ++ rest)))).length
          < 17) by omega),
      htake, ne_eq, not_true, if_false, ite_false, if_true, ite_true,
      if_neg (show ¬ (((obfTag ++ ([l] ++ (beBytes 4 tv ++ (beBytes 4 pv ++ rest)))).drop 17).length
          < 1) by rw [List.length_drop]; omega),
      hparse, if_neg (show ¬ (l < 2 ∨ 32 ≤ l) by omega),
      if_neg (show ¬ (((obfTag ++ ([l] ++ (beBytes 4 tv ++ (beBytes 4 pv ++ rest)))).drop 18).length
          < 4) by rw [List.length_drop]; omega),
      hparse4, if_neg htv0,
      if_neg (show ¬ (((obfTag ++ ([l] ++ (beBytes 4 tv ++ (beBytes 4 pv ++ rest)))).drop 22).length
          < 4) by rw [List.length_drop]; omega),
      hparse4p, if_pos hbad]

/-- Witness for C4's amended statement: a concrete out-of-range encrypt run
(logM = 40) and a concrete out-of-range decrypt header (logM = 1). -/
theorem naclypt_C4_param_range_handling_witness :
    runMain false ⟨FileKind.regular, true⟩ 40 1 1 [] [] randC boxC openC kdfC
      = ⟨2, obfTag ++ beBytes 1 (40 % 2 ^ 8), 0, 0, none⟩ ∧
    runMain true ⟨FileKind.regular, true⟩ 0 0 0 (obfTag ++ ([1] ++ [])) []
        randC boxC openC kdfC
      = ⟨1, [], 18, 0, none⟩ :=
  ⟨naclypt_C4_param_range_handling.1 ⟨FileKind.regular, true⟩ 40 1 1 [] []
      randC boxC openC kdfC (by decide) (by decide),
   naclypt_C4_param_range_handling.2.2.2.1 ⟨FileKind.regular, true⟩ [] randC
      boxC openC kdfC 1 [] (by decide) (by decide) (by decide)⟩

/-- C5 (code bug): a successful encryption reaches key derivation and exits
with the passphrase buffer zeroized (via ARGON2_FLAG_CLEAR_PASSWORD) but with
the derived-key buffer still holding the KDF output: naclypt.c never
overwrites the key buffer on any path, so with a KDF whose output is non-zero
the key buffer at process exit is non-zero. -/
theorem naclypt_C5_key_never_zeroized :
    (runMain false ⟨FileKind.regular, true⟩ 14 3 1 [] [7] randC boxC openC
        kdfOne).exit = 0 ∧
    (runMain false ⟨FileKind.regular, true⟩ 14 3 1 [] [7] randC boxC openC
        kdfOne).secrets = some (List.replicate 1 0, List.replicate 32 1) ∧
    List.replicate 32 (1 : Byte) ≠ List.replicate 32 0 := by
  refine ⟨?_, ?_, by decide⟩
  · have hE := runMain_encrypt_eq ⟨FileKind.regular, true⟩ 14 3 1 [] [7] randC
      boxC openC kdfOne (by decide) rfl (by decide) (by decide) (by decide)
      (by decide) (by decide) (by decide)
    rw [hE]
  · have hE := runMain_encrypt_eq ⟨FileKind.regular, true⟩ 14 3 1 [] [7] randC
      boxC openC kdfOne (by decide) rfl (by decide) (by decide) (by decide)
      (by decide) (by decide) (by decide)
    rw [hE]
    decide

/-- C6 counterexample: a FIFO input (exists, is not a regular file) is not
rejected: the encryption proceeds through the whole pipeline and exits 0, and
with empty standard input it even reads the input file (here empty). -/
theorem naclypt_C6_counterexample :
    (runMain false ⟨FileKind.fifo, true⟩ 14 3 1 [] [7] randC boxC openC
        kdfC).exit = 0 := by
  have hE := runMain_encrypt_eq ⟨FileKind.fifo, true⟩ 14 3 1 [] [7] randC boxC
    openC kdfC (by decide) rfl (by decide) (by decide) (by decide) (by decide)
    (by decide) (by decide)
  rw [hE]

/-- C6 amended: the input-kind check rejects exactly directories (S_ISDIR):
a directory input exits with code 3 before any input octet is consumed, and
any non-directory kind (regular, FIFO, socket, character or block device)
behaves exactly as a regular file. -/
theorem naclypt_C6_directory_check_only :
    (∀ (d : Bool) (env : Env) (a t p : Nat) (file pw : List Byte)
       (rand : Nat → Byte)
       (box : List Byte → List Byte → List Byte → List Byte)
       (openRaw : List Byte → List Byte → List Byte → Bool × List Byte)
       (kdf : List Byte → List Byte → Nat → Nat → Nat → List Byte),
      env.inputKind = FileKind.directory →
      runMain d env a t p file pw rand box openRaw kdf = ⟨3, [], 0, 0, none⟩) ∧
    (∀ (d : Bool) (k : FileKind) (u : Bool) (a t p : Nat) (file pw : List Byte)
       (rand : Nat → Byte)
       (box : List Byte → List Byte → List Byte → List Byte)
       (openRaw : List Byte → List Byte → List Byte → Bool × List Byte)
       (kdf : List Byte → List Byte → Nat → Nat → Nat → List Byte),
      k ≠ FileKind.directory →
      runMain d ⟨k, u⟩ a t p file pw rand box openRaw kdf
        = runMain d ⟨FileKind.regular, u⟩ a t p file pw rand box openRaw kdf) := by
  constructor
  · intro d env a t p file pw rand box openRaw kdf h
    simp only [runMain, if_pos h]
  · intro d k u a t p file pw rand box openRaw kdf h
    have h1 : (⟨k, u⟩ : Env).inputKind ≠ FileKind.directory := h
    have h2 : (⟨FileKind.regular, u⟩ : Env).inputKind ≠ FileKind.directory :=
      fun hcon => FileKind.noConfusion hcon
    simp only [runMain, if_neg h1, if_neg h2]

/-- Witness for C6's amended statement at concrete inputs: a directory input
is rejected with exit 3 and nothing consumed; a socket input behaves as a
regular file. -/
theorem naclypt_C6_directory_check_only_witness :
    runMain false ⟨FileKind.directory, true⟩ 14 3 1 [] [] randC boxC openC kdfC
      = ⟨3, [], 0, 0, none⟩ ∧
    runMain false ⟨FileKind.socket, true⟩ 14 3 1 [] [] randC boxC openC kdfC
      = runMain false ⟨FileKind.regular, true⟩ 14 3 1 [] [] randC boxC openC
          kdfC :=
  ⟨naclypt_C6_directory_check_only.1 false ⟨FileKind.directory, true⟩ 14 3 1
      [] [] randC boxC openC kdfC rfl,
   naclypt_C6_directory_check_only.2 false FileKind.socket true 14 3 1 [] []
      randC boxC openC kdfC (by decide)⟩

/-- C10: decryption never draws randomness (zero octets are read from the
/dev/urandom tape on every decrypt run), yet the device is still opened and
validated after the header parameters are parsed: with a well-formed header
and an invalid /dev/urandom the run exits 3 having consumed exactly the 26
header octets before the salt, while an out-of-range parameter exits 1 even
when /dev/urandom is invalid (the parameter checks come first). -/
theorem naclypt_C10_decrypt_validates_urandom :
    (∀ (env : Env) (a b cc : Nat) (file pw : List Byte) (rand : Nat → Byte)
       (box : List Byte → List Byte → List Byte → List Byte)
       (openRaw : List Byte → List Byte → List Byte → Bool × List Byte)
       (kdf : List Byte → List Byte → Nat → Nat → Nat → List Byte),
      (runMain true env a b cc file pw rand box openRaw kdf).randUsed = 0) ∧
    (∀ (env : Env) (pw : List Byte) (rand : Nat → Byte)
       (box : List Byte → List Byte → List Byte → List Byte)
       (openRaw : List Byte → List Byte → List Byte → Bool × List Byte)
       (kdf : List Byte → List Byte → Nat → Nat → Nat → List Byte)
       (l tv pv : Nat) (rest : List Byte),
      env.inputKind ≠ FileKind.directory → env.urandomOk = false →
      2 ≤ l → l < 32 → tv ≠ 0 → tv < 2 ^ 32 → pv ≠ 0 → pv < 2 ^ 24 →
      pv * 8 ≤ 2 ^ l →
      runMain true env 0 0 0
          (obfTag ++ ([l] ++ (beBytes 4 tv ++ (beBytes 4 pv ++ rest)))) pw rand
          box openRaw kdf
        = ⟨3, [], 26, 0, none⟩) ∧
    (∀ (env : Env) (pw : List Byte) (rand : Nat → Byte)
       (box : List Byte → List Byte → List Byte → List Byte)
       (openRaw : List Byte → List Byte → List Byte → Bool × List Byte)
       (kdf : List Byte → List Byte → Nat → Nat → Nat → List Byte)
       (l : Nat) (rest : List Byte),
      env.inputKind ≠ FileKind.directory → env.urandomOk = false →
      l < 256 → (l < 2 ∨ 32 ≤ l) →
      runMain true env 0 0 0 (obfTag ++ ([l] ++ rest)) pw rand box openRaw kdf
        = ⟨1, [], 18, 0, none⟩) := by
  refine ⟨?_, ?_, ?_⟩
  · intro env a b cc file pw rand box openRaw kdf
    unfold runMain
    lift_lets
    extract_lets tagLen out0 pos0 logm out1 pos1 t out2 pos2 p out3 pos3 salt
      out4 pos4 saltRandUsed password key secrets D E
    clear_value tagLen out0 pos0 logm out1 pos1 t out2 pos2 p out3 pos3 salt
      out4 pos4 saltRandUsed password key secrets D E
    by_cases h0 : env.inputKind = FileKind.directory
    · rw [if_pos h0]
    · rw [if_neg h0]
      by_cases h1 : true = true ∧ file.length < tagLen
      · rw [if_pos h1]
      · rw [if_neg h1]
        by_cases h2 : true = true ∧ List.take tagLen file ≠ obfTag
        · rw [if_pos h2]
        · rw [if_neg h2]
          by_cases h3 : true = true ∧ (List.drop pos0 file).length < 1
          · rw [if_pos h3]
          · rw [if_neg h3]
            by_cases h4 : logm < 2 ∨ 32 ≤ logm
            · rw [if_pos h4]
            · rw [if_neg h4]
              by_cases h5 : true = true ∧ (List.drop pos1 file).length < 4
              · rw [if_pos h5]
              · rw [if_neg h5]
                by_cases h6 : t = 0
                · rw [if_pos h6]
                · rw [if_neg h6]
                  by_cases h7 : true = true ∧ (List.drop pos2 file).length < 4
                  · rw [if_pos h7]
                  · rw [if_neg h7]
                    by_cases h8 : p = 0 ∨ 2 ^ 24 ≤ p
                    · rw [if_pos h8]
                    · rw [if_neg h8]
                      by_cases h9 : 2 ^ logm < p * 8
                      · rw [if_pos h9]
                      · rw [if_neg h9]
                        by_cases h10 : env.urandomOk = false
                        · rw [if_pos h10]
                        · rw [if_neg h10]
                          by_cases h11 : true = true ∧ (List.drop pos3 file).length < 32
                          · rw [if_pos h11]
                          · rw [if_neg h11]
                            rw [if_pos rfl]
  · intro env pw rand box openRaw kdf l tv pv rest henv hu hl2 hl32 htv0 htv32
      hpv0 hpv24 hmem
    have e17 : (obfTag ++ ([l] ++ (beBytes 4 tv ++ (beBytes 4 pv ++ rest)))).drop 17
        = [l] ++ (beBytes 4 tv ++ (beBytes 4 pv ++ rest)) :=
      List.drop_left' length_obfTag
    have e18 : (obfTag ++ ([l] ++ (beBytes 4 tv ++ (beBytes 4 pv ++ rest)))).drop 18
        = beBytes 4 tv ++ (beBytes 4 pv ++ rest) := drop_add_of_drop_eq e17 rfl
    have e22 : (obfTag ++ ([l] ++ (beBytes 4 tv ++ (beBytes 4 pv ++ rest)))).drop 22
        = beBytes 4 pv ++ rest := drop_add_of_drop_eq e18 (length_beBytes 4 tv)
    have hlen : (obfTag ++ ([l] ++ (beBytes 4 tv ++ (beBytes 4 pv ++ rest)))).length
        = 26 + rest.length := by
      simp only [List.length_append, length_obfTag, List.length_cons,
        List.length_nil, length_beBytes]
      omega
    have htake : (obfTag ++ ([l] ++ (beBytes 4 tv ++ (beBytes 4 pv ++ rest)))).take 17
        = obfTag := List.take_left' length_obfTag
    have htk1 : ((obfTag ++ ([l] ++ (beBytes 4 tv ++ (beBytes 4 pv ++ rest)))).drop 17).take 1
        = [l] := by
      rw [e17]
      exact List.take_left' rfl
    have hparse : parseParam 1
        (((obfTag ++ ([l] ++ (beBytes 4 tv ++ (beBytes 4 pv ++ rest)))).drop 17).take 1)
        = l := by
      rw [htk1]
      exact parseParam_one l (show l < 256 by omega)
    have htk4 : ((obfTag ++ ([l] ++ (beBytes 4 tv ++ (beBytes 4 pv ++ rest)))).drop 18).take 4
        = beBytes 4 tv := by
      rw [e18]
      exact List.take_left' (length_beBytes 4 tv)
    have hparse4 : parseParam 4
        (((obfTag ++ ([l] ++ (beBytes 4 tv ++ (beBytes 4 pv ++ rest)))).drop 18).take 4)
        = tv := by
      rw [htk4]
      exact parseParam_beBytes_four tv htv32
    have htk4p : ((obfTag ++ ([l] ++ (beBytes 4 tv ++ (beBytes 4 pv ++ rest)))).drop 22).take 4
        = beBytes 4 pv := by
      rw [e22]
      exact List.take_left' (length_beBytes 4 pv)
    have hparse4p : parseParam 4
        (((obfTag ++ ([l] ++ (beBytes 4 tv ++ (beBytes 4 pv ++ rest)))).drop 22).take 4)
        = pv := by
      rw [htk4p]
      exact parseParam_beBytes_four pv (show pv < 2 ^ 32 by omega)
    simp only [runMain, length_PRIMITIVE, if_neg henv, eq_self_iff_true,
      true_and, hu,
      if_neg (show ¬ ((obfTag ++ ([l] ++ (beBytes 4 tv ++ (beBytes 4 pv ++ rest)))).length
          < 17) by omega),
      htake, ne_eq, not_true, if_false, ite_false, if_true, ite_true,
      if_neg (show ¬ (((obfTag ++ ([l] ++ (beBytes 4 tv ++ (beBytes 4 pv ++ rest)))).drop 17).length
          < 1) by rw [List.length_drop]; omega),
      hparse, if_neg (show ¬ (l < 2 ∨ 32 ≤ l) by omega),
      if_neg (show ¬ (((obfTag ++ ([l] ++ (beBytes 4 tv ++ (beBytes 4 pv ++ rest)))).drop 18).length
          < 4) by rw [List.length_drop]; omega),
      hparse4, if_neg htv0,
      if_neg (show ¬ (((obfTag ++ ([l] ++ (beBytes 4 tv ++ (beBytes 4 pv ++ rest)))).drop 22).length
          < 4) by rw [List.length_drop]; omega),
      hparse4p,
      if_neg (show ¬ (pv = 0 ∨ 2 ^ 24 ≤ pv) by push_neg; exact ⟨hpv0, hpv24⟩),
      if_neg (show ¬ (2 ^ l < pv * 8) by omega)]
  · intro env pw rand box openRaw kdf l rest henv hu hl256 hbad
    have e17 : (obfTag ++ ([l] ++ rest)).drop 17 = [l] ++ rest :=
      List.drop_left' length_obfTag
    have hlen : (obfTag ++ ([l] ++ rest)).length = 18 + rest.length := by
      simp only [List.length_append, length_obfTag, List.length_cons,
        List.length_nil]
      omega
    have htake : (obfTag ++ ([l] ++ rest)).take 17 = obfTag :=
      List.take_left' length_obfTag
    have htk1 : ((obfTag ++ ([l] ++ rest)).drop 17).take 1 = [l] := by
      rw [e17]
      exact List.take_left' rfl
    have hparse : parseParam 1 (((obfTag ++ ([l] ++ rest)).drop 17).take 1)
        = l := by
      rw [htk1]
      exact parseParam_one l hl256
    simp only [runMain, length_PRIMITIVE, if_neg henv, eq_self_iff_true,
      true_and,
      if_neg (show ¬ ((obfTag ++ ([l] ++ rest)).length < 17) by omega),
      htake, ne_eq, not_true, if_false, ite_false, if_true, ite_true,
      if_neg (show ¬ (((obfTag ++ ([l] ++ rest)).drop 17).length < 1) by
        rw [List.length_drop]; omega),
      hparse, if_pos hbad]

/-- Witness for C10 at concrete inputs: a decrypt run with empty input reads
no randomness; a valid header with an invalid /dev/urandom exits 3 at input
position 26. -/
theorem naclypt_C10_decrypt_validates_urandom_witness :
    (runMain true ⟨FileKind.regular, true⟩ 0 0 0 [] [] randC boxC openC
        kdfC).randUsed = 0 ∧
    runMain true ⟨FileKind.regular, false⟩ 0 0 0
        (obfTag ++ ([14] ++ (beBytes 4 3 ++ (beBytes 4 1 ++ [])))) [] randC
        boxC openC kdfC
      = ⟨3, [], 26, 0, none⟩ :=
  ⟨naclypt_C10_decrypt_validates_urandom.1 ⟨FileKind.regular, true⟩ 0 0 0 []
      [] randC boxC openC kdfC,
   naclypt_C10_decrypt_validates_urandom.2.1 ⟨FileKind.regular, false⟩ []
      randC boxC openC kdfC 14 3 1 [] (by decide) rfl (by decide) (by decide)
      (by decide) (by decide) (by decide) (by decide) (by decide)⟩

end Naclypt
